import Mathlib

/-!
Verification of the fetch-deduplication / fan-out engine in
`scrapy-src/pipelines/media.py` (class `MediaPipeline`).

The Python engine is embedded as an explicit state machine:

* `SpiderInfo` mirrors `MediaPipeline.SpiderInfo` (fields `downloading`,
  `downloaded`, `waiting`);
* `processRequest` embeds `_process_request` (media.py lines 88-116);
* `_check_media_to_download` embeds lines 124-139 (its outcome is either an
  already-available result or a started asynchronous download);
* `_cache_result_and_execute_waiters` embeds lines 142-151;
* `process_item` embeds lines 78-84 (the `DeferredList` join is tracked as an
  `ItemTask` holding one slot per constituent deferred; a task whose slots have
  all fired triggers `item_completed`, recorded as an `Effect.itemCompleted`);
* a session run is a fold over external events: item submissions
  (`process_item` calls) and completions of the asynchronous downloads
  (the firing of the deferred built at lines 129/135).

Callbacks are modelled by opaque identifiers (their values are never inspected
by the engine).  A twisted callback that raises is equivalent to one that
returns a `Failure`, so the overridable hooks `media_to_download`,
`media_downloaded` and `media_failed` are modelled as total functions that may
return a failure `Outcome`; `get_media_requests` is called directly (line 80),
outside any deferred, so an exception there is modelled with `Except`.
-/

namespace MediaPipeline

/-- Outcome of a media request: a successful response payload, or a twisted
`Failure` carrying its diagnostic payload (captured frames and stack). -/
inductive Outcome where
  | success (payload : String)
  | failure (error : String) (frames : List String) (stack : Option String)
deriving DecidableEq

def Outcome.isFailure : Outcome → Bool
  | .failure _ _ _ => true
  | .success _ => false

/-- Lines 143-147: `if isinstance(result, Failure): result.cleanFailure();
result.frames = []; result.stack = None`.  Identity on successes. -/
def cleanFailure : Outcome → Outcome
  | .failure e _ _ => .failure e [] none
  | o => o

/-- A scrapy `Request`: the fetch-defining fields (method, url) plus the
caller-supplied callback/errback (opaque identifiers; `none` means absent). -/
structure Request where
  method : String
  url : String
  callback : Option Nat
  errback : Option Nat
deriving DecidableEq

/-- `scrapy.utils.request.request_fingerprint` (line 89): a deterministic key
over the fetch-defining fields, independent of the callbacks. -/
def request_fingerprint (r : Request) : String :=
  r.method ++ " " ++ r.url

/-- Lines 92-93: `request.callback = None; request.errback = None`. -/
def detachCallbacks (r : Request) : Request :=
  { r with callback := none, errback := none }

/-- One waiter (the `wad` deferred of line 101, or the deferred of line 97):
a unique id plus the callback/errback pair detached from the request.
`cb = none` stands for the identity default of line 90. -/
structure Waiter where
  wid : Nat
  cb : Option Nat
  eb : Option Nat
deriving DecidableEq

/-- `MediaPipeline.SpiderInfo` (lines 24-29): per-session state. -/
structure SpiderInfo where
  spider : Nat
  downloading : List String
  downloaded : List (String × Outcome)
  waiting : List (String × List Waiter)
deriving DecidableEq

/-- Association-list lookup (python `dict` access / `in` test). -/
def dictFind {κ α : Type} [DecidableEq κ] (d : List (κ × α)) (k : κ) : Option α :=
  match d with
  | [] => none
  | p :: rest => if p.1 = k then some p.2 else dictFind rest k

/-- Association-list store (python `d[k] = v`). -/
def dictInsert {κ α : Type} [DecidableEq κ] (d : List (κ × α)) (k : κ) (v : α) :
    List (κ × α) :=
  match d with
  | [] => [(k, v)]
  | p :: rest => if p.1 = k then (k, v) :: rest else p :: dictInsert rest k v

/-- Association-list deletion (python `d.pop(k)` discarding the value). -/
def dictRemove {κ α : Type} [DecidableEq κ] (d : List (κ × α)) (k : κ) :
    List (κ × α) :=
  match d with
  | [] => []
  | p :: rest => if p.1 = k then rest else p :: dictRemove rest k

/-- Python `set.add`. -/
def setAdd (s : List String) (k : String) : List String :=
  if k ∈ s then s else s ++ [k]

/-- `info.waiting[fp].append(wad)` on a `defaultdict(list)` (line 102). -/
def waitAppend (w : List (String × List Waiter)) (k : String) (x : Waiter) :
    List (String × List Waiter) :=
  dictInsert w k ((dictFind w k).getD [] ++ [x])

/-- The overridable hooks consumed by the engine.  `get_media_requests` is the
only one invoked outside a deferred, hence the only one whose exceptions
propagate (`Except`); the others raising is modelled by returning a failure
outcome, per twisted's callback semantics. -/
structure Hooks where
  get_media_requests : Nat → Except String (List Request)
  media_to_download : Request → Option Outcome
  media_downloaded : Outcome → Outcome
  media_failed : Outcome → Outcome

/-- Result of `_check_media_to_download` (lines 124-139): either
`media_to_download` supplied a result (`result is not None`, line 125-126), or
an asynchronous download of the request was started (lines 127-139; whether via
`download_func` or `crawler.engine.download` is unobservable here). -/
inductive CheckResult where
  | resolvedNow (result : Outcome)
  | downloadPending (req : Request)
deriving DecidableEq

def _check_media_to_download (result : Option Outcome) (r : Request) : CheckResult :=
  match result with
  | some res => .resolvedNow res
  | none => .downloadPending r

/-- Lines 142-151, state part: sanitize a failure result, remove `fp` from
`downloading`, store the result in `downloaded`, pop the waiter list.
Returns the new `SpiderInfo`, the waiters to fire, and the fired outcome. -/
def _cache_result_and_execute_waiters (result : Outcome) (fp : String)
    (info : SpiderInfo) : SpiderInfo × List Waiter × Outcome :=
  let res := cleanFailure result
  (⟨info.spider,
    info.downloading.erase fp,
    dictInsert info.downloaded fp res,
    dictRemove info.waiting fp⟩,
   (dictFind info.waiting fp).getD [],
   res)

/-- One constituent of an item's `DeferredList` (line 83): the id of the
deferred returned by `_process_request` for one submitted request, together
with the fingerprint that deferred awaits. -/
structure ItemTask where
  tid : Nat
  item : Nat
  slots : List (Nat × String)
deriving DecidableEq

/-- The whole mutable state of a session run: the `SpiderInfo`, the set of
deferreds that have already fired (by id, with the outcome they fired with),
the pending per-item joins, and fresh-id counters. -/
structure EngineState where
  info : SpiderInfo
  fired : List (Nat × Outcome)
  tasks : List ItemTask
  nextWid : Nat
  nextTid : Nat
deriving DecidableEq

/-- Observable actions of the engine. -/
inductive Effect where
  /-- Line 110: the `media_to_download` chain for `fp` was started on `req`. -/
  | fetchInvoked (fp : String) (req : Request)
  /-- Lines 129/135: an asynchronous download of `req` was started. -/
  | downloadStarted (fp : String) (req : Request)
  /-- Line 97: a submit was answered synchronously from the cache. -/
  | notifyCached (fp : String) (w : Waiter) (out : Outcome)
  /-- Lines 150-151: a queued waiter was fired during the drain. -/
  | notify (fp : String) (w : Waiter) (out : Outcome)
  /-- Line 84: `item_completed` was invoked for one item's `DeferredList`. -/
  | itemCompleted (tid : Nat) (item : Nat) (results : List (Bool × Outcome))
  /-- Line 80: `get_media_requests` raised; `process_item` propagates. -/
  | processItemError (item : Nat) (err : String)
deriving DecidableEq

/-- Resolution of key `fp` with `result` (the `addBoth` of line 112): cache the
sanitized result and fire every queued waiter with it, in queue order. -/
def resolveKey (result : Outcome) (fp : String) (s : EngineState) :
    EngineState × List Effect :=
  let r := _cache_result_and_execute_waiters result fp s.info
  ({ s with
      info := r.1,
      fired := r.2.1.foldl (fun f w => dictInsert f w.wid r.2.2) s.fired },
   r.2.1.map (fun w => .notify fp w r.2.2))

/-- `_process_request` (lines 88-116).  Returns the new state, the emitted
effects, the id of the deferred handed back to the caller, and the request
object after the in-place callback detachment of lines 92-93. -/
def processRequest (hooks : Hooks) (r : Request) (s : EngineState) :
    EngineState × List Effect × Nat × Request :=
  let fp := request_fingerprint r
  let r' := detachCallbacks r
  let w : Waiter := ⟨s.nextWid, r.callback, r.errback⟩
  match dictFind s.info.downloaded fp with
  | some v =>
      -- lines 96-97: already seen, fire the caller's deferred from the cache
      ({ s with fired := dictInsert s.fired w.wid v, nextWid := s.nextWid + 1 },
       [.notifyCached fp w v], w.wid, r')
  | none =>
      -- lines 101-102: queue the waiter
      let s1 : EngineState :=
        { s with
            info := { s.info with waiting := waitAppend s.info.waiting fp w },
            nextWid := s.nextWid + 1 }
      if fp ∈ s1.info.downloading then
        -- lines 105-106: already downloading, just wait
        (s1, [], w.wid, r')
      else
        -- line 109
        let s2 : EngineState :=
          { s1 with info := { s1.info with downloading := setAdd s1.info.downloading fp } }
        -- lines 110-116
        match _check_media_to_download (hooks.media_to_download r') r' with
        | .resolvedNow result =>
            let r2 := resolveKey result fp s2
            (r2.1, .fetchInvoked fp r' :: r2.2, w.wid, r')
        | .downloadPending req =>
            (s2, [.fetchInvoked fp r', .downloadStarted fp req], w.wid, r')

/-- The submit loop of line 81: process each media request in order,
collecting for each the (deferred id, fingerprint) slot of the
`DeferredList`. -/
def processRequests (hooks : Hooks) (rs : List Request) (s : EngineState) :
    EngineState × List Effect × List (Nat × String) :=
  match rs with
  | [] => (s, [], [])
  | r :: rest =>
      let p := processRequest hooks r s
      let q := processRequests hooks rest p.1
      (q.1, p.2.1 ++ q.2.1, (p.2.2.1, request_fingerprint r) :: q.2.2)

/-- `process_item` (lines 78-84): extract the media requests, submit each, and
register the `DeferredList` join as an `ItemTask`.  If `get_media_requests`
raises, the exception propagates out of `process_item` (no task is created). -/
def process_item (hooks : Hooks) (it : Nat) (s : EngineState) :
    EngineState × List Effect :=
  match hooks.get_media_requests it with
  | .error e => (s, [.processItemError it e])
  | .ok rs =>
      let p := processRequests hooks rs s
      ({ p.1 with
          tasks := p.1.tasks ++ [⟨p.1.nextTid, it, p.2.2⟩],
          nextTid := p.1.nextTid + 1 },
       p.2.1)

/-- The download deferred for `fp` fires with `raw`: `media_downloaded` /
`media_failed` post-process (lines 130-132 / 136-138), then the `addBoth` of
line 112 caches and drains.  A completion for a key with no outstanding
download cannot occur in the source (the chain of line 110 is built exactly
once per inflight key), so such an event is a no-op. -/
def completeFetch (hooks : Hooks) (fp : String) (raw : Outcome) (s : EngineState) :
    EngineState × List Effect :=
  if fp ∈ s.info.downloading then
    let result :=
      match raw with
      | .success _ => hooks.media_downloaded raw
      | .failure _ _ _ => hooks.media_failed raw
    resolveKey result fp s
  else (s, [])

/-- A `DeferredList` has fired iff all of its constituent deferreds have. -/
def taskDone (fired : List (Nat × Outcome)) (t : ItemTask) : Bool :=
  t.slots.all (fun sl => (dictFind fired sl.1).isSome)

/-- The `(success, value)` list a fired `DeferredList` passes to
`item_completed` (line 84): one entry per constituent, in submit order. -/
def taskResults (fired : List (Nat × Outcome)) (t : ItemTask) :
    List (Bool × Outcome) :=
  t.slots.map (fun sl =>
    match dictFind fired sl.1 with
    | some v => (!v.isFailure, v)
    | none => (false, .failure "pending" [] none))

/-- Fire `item_completed` for every item task whose deferreds have all fired,
keeping the rest pending. -/
def sweep (s : EngineState) : EngineState × List Effect :=
  ({ s with tasks := s.tasks.filter (fun t => !taskDone s.fired t) },
   (s.tasks.filter (taskDone s.fired)).map
     (fun t => .itemCompleted t.tid t.item (taskResults s.fired t)))

/-- External events driving a session: an item arriving at `process_item`, or
an asynchronous download completing. -/
inductive Event where
  | submitItem (it : Nat)
  | completeDownload (fp : String) (raw : Outcome)
deriving DecidableEq

def step (hooks : Hooks) (s : EngineState) (ev : Event) :
    EngineState × List Effect :=
  let p :=
    match ev with
    | .submitItem it => process_item hooks it s
    | .completeDownload fp raw => completeFetch hooks fp raw s
  let q := sweep p.1
  (q.1, p.2 ++ q.2)

def runFrom (hooks : Hooks) (s : EngineState) : List Event → EngineState × List Effect
  | [] => (s, [])
  | ev :: evs =>
      let p := step hooks s ev
      let q := runFrom hooks p.1 evs
      (q.1, p.2 ++ q.2)

/-- `SpiderInfo.__init__` (lines 25-29): fresh empty session state. -/
def SpiderInfo.fresh (spider : Nat) : SpiderInfo :=
  ⟨spider, [], [], []⟩

def freshState (spider : Nat) : EngineState :=
  ⟨.fresh spider, [], [], 0, 0⟩

/-- A whole session: run the events from the fresh state `open_spider`
installs. -/
def run (hooks : Hooks) (spider : Nat) (events : List Event) :
    EngineState × List Effect :=
  runFrom hooks (freshState spider) events

/-- The pipeline object; `open_spider` (lines 75-76) replaces `spiderinfo`
wholesale with a fresh `SpiderInfo`. -/
structure PipelineObj where
  spiderinfo : EngineState

def open_spider (_p : PipelineObj) (spider : Nat) : PipelineObj :=
  ⟨freshState spider⟩

/-! Observation helpers: counters and projections over the effect log. -/

def isFetchFor (k : String) : Effect → Bool
  | .fetchInvoked fp _ => fp = k
  | _ => false

/-- How many times the fetch chain of line 110 was started for key `k`. -/
def countFetch (k : String) (effs : List Effect) : Nat :=
  (effs.filter (isFetchFor k)).length

def isDownloadFor (k : String) : Effect → Bool
  | .downloadStarted fp _ => fp = k
  | _ => false

/-- How many asynchronous downloads were started for key `k`. -/
def countDownload (k : String) (effs : List Effect) : Nat :=
  (effs.filter (isDownloadFor k)).length

/-- Every outcome delivered to some waiter for key `k` (cached answers and
drain notifications alike). -/
def notifyOutsFor (k : String) (effs : List Effect) : List Outcome :=
  effs.filterMap (fun e =>
    match e with
    | .notify fp _ out => if fp = k then some out else none
    | .notifyCached fp _ out => if fp = k then some out else none
    | _ => none)

/-- The waiter ids fired by the drain of lines 150-151 for key `k`, in
notification order. -/
def drainWidsFor (k : String) (effs : List Effect) : List Nat :=
  effs.filterMap (fun e =>
    match e with
    | .notify fp w _ => if fp = k then some w.wid else none
    | _ => none)

/-- The task ids of all `item_completed` invocations in the log. -/
def complTids (effs : List Effect) : List Nat :=
  effs.filterMap (fun e =>
    match e with
    | .itemCompleted tid _ _ => some tid
    | _ => none)

def countSubmit (i : Nat) (events : List Event) : Nat :=
  (events.filter (fun e =>
    match e with
    | .submitItem it => it = i
    | _ => false)).length

def countComplFor (i : Nat) (effs : List Effect) : Nat :=
  (effs.filter (fun e =>
    match e with
    | .itemCompleted _ it _ => it = i
    | _ => false)).length

def countPendFor (i : Nat) (tasks : List ItemTask) : Nat :=
  (tasks.filter (fun t => t.item = i)).length

/-- How many `process_item` submissions for item `i` did not raise in
`get_media_requests` (only those create a `DeferredList` join). -/
def countSubmitOk (hooks : Hooks) (i : Nat) (events : List Event) : Nat :=
  (events.filter (fun e =>
    match e with
    | .submitItem it =>
        it = i && (match hooks.get_media_requests it with
          | .ok _ => true
          | .error _ => false)
    | _ => false)).length

/-- Key `k` has been seen by the coordinator: it is being downloaded or its
outcome is cached. -/
def Touched (k : String) (s : EngineState) : Prop :=
  k ∈ s.info.downloading ∨ (dictFind s.info.downloaded k).isSome

/-- The waiter ids queued for key `k`, in queue (arrival) order. -/
def waitWids (w : List (String × List Waiter)) (k : String) : List Nat :=
  ((dictFind w k).getD []).map Waiter.wid

/-- A constituent deferred of an item's `DeferredList` is in a consistent
state: either still queued for its key, or already fired with the outcome its
key resolved to. -/
def SlotGood (s : EngineState) (sl : Nat × String) : Prop :=
  sl.1 ∈ waitWids s.info.waiting sl.2 ∨
    ∃ v, dictFind s.fired sl.1 = some v ∧ dictFind s.info.downloaded sl.2 = some v

/-- `events` contains at least one `process_item` submission carrying a
request with fingerprint `k`. -/
def SubmitsKey (hooks : Hooks) (events : List Event) (k : String) : Prop :=
  ∃ it, Event.submitItem it ∈ events ∧
    ∃ rs, hooks.get_media_requests it = .ok rs ∧
      ∃ r, r ∈ rs ∧ request_fingerprint r = k

/-- The inductive invariant of a session run: relates the reachable state to
the effect log produced so far. -/
structure Inv (hooks : Hooks) (s : EngineState) (effs : List Effect) : Prop where
  dlNodup : s.info.downloading.Nodup
  waitKeysNodup : (s.info.waiting.map Prod.fst).Nodup
  disj : ∀ k, k ∈ s.info.downloading → dictFind s.info.downloaded k = none
  waitInflight : ∀ k, (dictFind s.info.waiting k).isSome → k ∈ s.info.downloading
  waitBound : ∀ k x, x ∈ waitWids s.info.waiting k → x < s.nextWid
  firedBound : ∀ x, (dictFind s.fired x).isSome → x < s.nextWid
  waitFired : ∀ k x, x ∈ waitWids s.info.waiting k → dictFind s.fired x = none
  waitDisj : ∀ k k', k ≠ k' → ∀ x, x ∈ waitWids s.info.waiting k →
      x ∉ waitWids s.info.waiting k'
  waitSorted : ∀ k, (waitWids s.info.waiting k).Pairwise (· < ·)
  fetchCount : ∀ k, countFetch k effs =
      (if k ∈ s.info.downloading ∨ (dictFind s.info.downloaded k).isSome then 1 else 0)
  dlCount : ∀ k, countDownload k effs ≤ countFetch k effs
  notifySame : ∀ k o, o ∈ notifyOutsFor k effs → dictFind s.info.downloaded k = some o
  drainSorted : ∀ k, (drainWidsFor k effs).Pairwise (· < ·)
  drainCache : ∀ k, drainWidsFor k effs ≠ [] → (dictFind s.info.downloaded k).isSome
  taskTidBound : ∀ t, t ∈ s.tasks → t.tid < s.nextTid
  ctidBound : ∀ tid, tid ∈ complTids effs → tid < s.nextTid
  tidsNodup : (complTids effs ++ s.tasks.map ItemTask.tid).Nodup
  taskWf : ∀ t, t ∈ s.tasks → ∃ rs, hooks.get_media_requests t.item = .ok rs ∧
      t.slots.length = rs.length ∧
      ∀ j (hj : j < t.slots.length) (hj2 : j < rs.length),
        (t.slots.get ⟨j, hj⟩).2 = request_fingerprint (rs.get ⟨j, hj2⟩)
  slotOk : ∀ t, t ∈ s.tasks → ∀ sl, sl ∈ t.slots → SlotGood s sl
  complOk : ∀ tid it results, Effect.itemCompleted tid it results ∈ effs →
      ∃ rs, hooks.get_media_requests it = .ok rs ∧
        results.length = rs.length ∧
        ∀ j (hj : j < results.length) (hj2 : j < rs.length),
          ∃ v, dictFind s.info.downloaded (request_fingerprint (rs.get ⟨j, hj2⟩)) = some v ∧
            results.get ⟨j, hj⟩ = (!v.isFailure, v)

/-! Concrete fixtures used to exercise the theorems on explicit inputs. -/

def reqA : Request := ⟨"GET", "a", some 1, none⟩

def reqB : Request := ⟨"GET", "b", none, some 2⟩

def reqB2 : Request := ⟨"GET", "b", some 3, none⟩

/-- A concrete hook assignment: item 0 references `a` and `b`, item 1
references `b` again, item 2 references nothing, every other item's
`get_media_requests` raises. -/
def demoHooks : Hooks where
  get_media_requests it :=
    if it = 0 then .ok [reqA, reqB]
    else if it = 1 then .ok [reqB2]
    else if it = 2 then .ok []
    else .error "boom"
  media_to_download _ := none
  media_downloaded o := o
  media_failed o := o

/-- Same items, but `media_to_download` short-circuits requests for `a` with a
substitute outcome. -/
def scHooks : Hooks where
  get_media_requests it := demoHooks.get_media_requests it
  media_to_download r := if r.url = "a" then some (.success "substitute") else none
  media_downloaded o := o
  media_failed o := o

/-- Same items, but `media_to_download` raises — modelled, per twisted's
callback semantics, as supplying a `Failure` with a captured traceback. -/
def failHooks : Hooks where
  get_media_requests it := demoHooks.get_media_requests it
  media_to_download _ := some (.failure "hookboom" ["frame0", "frame1"] (some "stack"))
  media_downloaded o := o
  media_failed o := o

/-- A session state holding one cached outcome, as left behind by a resolved
fetch of `reqA`'s fingerprint. -/
def cachedDemoState : EngineState :=
  ⟨⟨0, [], [("GET a", .success "va")], []⟩, [(0, .success "va")], [], 7, 3⟩

/-! Association-list, set and fold lemmas. -/

theorem dictFind_insert_self {κ α : Type} [DecidableEq κ] (d : List (κ × α)) (k : κ) (v : α) :
    dictFind (dictInsert d k v) k = some v := by
  induction d with
  | nil => simp [dictInsert, dictFind]
  | cons p rest ih =>
      by_cases h : p.1 = k
      · simp [dictInsert, dictFind, h]
      · simp [dictInsert, dictFind, h, ih]

theorem dictFind_insert_ne {κ α : Type} [DecidableEq κ] (d : List (κ × α)) (k k' : κ) (v : α)
    (h : k' ≠ k) : dictFind (dictInsert d k v) k' = dictFind d k' := by
  induction d with
  | nil => simp [dictInsert, dictFind, Ne.symm h]
  | cons p rest ih =>
      by_cases hp : p.1 = k
      · simp [dictInsert, dictFind, hp, Ne.symm h]
      · simp [dictInsert, dictFind, hp, ih]

theorem dictFind_eq_none_iff {κ α : Type} [DecidableEq κ] (d : List (κ × α)) (k : κ) :
    dictFind d k = none ↔ k ∉ d.map Prod.fst := by
  induction d with
  | nil => simp [dictFind]
  | cons p rest ih =>
      by_cases hp : p.1 = k
      · simp [dictFind, hp]
      · simp [dictFind, hp, ih, Ne.symm hp]

theorem dictFind_isSome_iff_mem {κ α : Type} [DecidableEq κ] (d : List (κ × α)) (k : κ) :
    (dictFind d k).isSome ↔ k ∈ d.map Prod.fst := by
  rw [Option.isSome_iff_ne_none, ne_eq, dictFind_eq_none_iff, not_not]

theorem dictFind_remove_ne {κ α : Type} [DecidableEq κ] (d : List (κ × α)) (k k' : κ)
    (h : k' ≠ k) : dictFind (dictRemove d k) k' = dictFind d k' := by
  induction d with
  | nil => simp [dictRemove]
  | cons p rest ih =>
      by_cases hp : p.1 = k
      · simp [dictRemove, dictFind, hp, Ne.symm h]
      · simp [dictRemove, dictFind, hp, ih]

theorem dictFind_remove_self {κ α : Type} [DecidableEq κ] (d : List (κ × α)) (k : κ)
    (h : (d.map Prod.fst).Nodup) : dictFind (dictRemove d k) k = none := by
  induction d with
  | nil => simp [dictRemove, dictFind]
  | cons p rest ih =>
      rw [List.map_cons, List.nodup_cons] at h
      obtain ⟨hnm, hnd⟩ := h
      by_cases hp : p.1 = k
      · subst hp
        simp only [dictRemove, if_pos rfl]
        exact (dictFind_eq_none_iff rest p.1).mpr hnm
      · simp [dictRemove, dictFind, hp, ih hnd]

theorem mem_keys_dictInsert {κ α : Type} [DecidableEq κ] (d : List (κ × α)) (k k' : κ) (v : α) :
    k' ∈ (dictInsert d k v).map Prod.fst ↔ k' ∈ d.map Prod.fst ∨ k' = k := by
  induction d with
  | nil => simp [dictInsert]
  | cons p rest ih =>
      by_cases hp : p.1 = k
      · subst hp
        simp [dictInsert]
        tauto
      · simp [dictInsert, hp, ih]
        tauto

theorem nodup_keys_dictInsert {κ α : Type} [DecidableEq κ] (d : List (κ × α)) (k : κ) (v : α)
    (h : (d.map Prod.fst).Nodup) : ((dictInsert d k v).map Prod.fst).Nodup := by
  induction d with
  | nil => simp [dictInsert]
  | cons p rest ih =>
      rw [List.map_cons, List.nodup_cons] at h
      obtain ⟨hnm, hnd⟩ := h
      by_cases hp : p.1 = k
      · subst hp
        simp only [dictInsert, if_pos rfl, List.map_cons]
        exact List.nodup_cons.mpr ⟨hnm, hnd⟩
      · simp only [dictInsert, if_neg hp, List.map_cons]
        refine List.nodup_cons.mpr ⟨?_, ih hnd⟩
        intro hmem
        rcases (mem_keys_dictInsert rest k p.1 v).mp hmem with hmem2 | hmem2
        · exact hnm hmem2
        · exact hp hmem2

theorem keys_dictRemove_sublist {κ α : Type} [DecidableEq κ] (d : List (κ × α)) (k : κ) :
    ((dictRemove d k).map Prod.fst).Sublist (d.map Prod.fst) := by
  induction d with
  | nil => simp [dictRemove]
  | cons p rest ih =>
      by_cases hp : p.1 = k
      · simp only [dictRemove, if_pos hp, List.map_cons]
        exact (List.sublist_cons_self _ _)
      · simp only [dictRemove, if_neg hp, List.map_cons]
        exact ih.cons₂ p.1

theorem nodup_keys_dictRemove {κ α : Type} [DecidableEq κ] (d : List (κ × α)) (k : κ)
    (h : (d.map Prod.fst).Nodup) : ((dictRemove d k).map Prod.fst).Nodup :=
  (keys_dictRemove_sublist d k).nodup h

theorem dictRemove_dictInsert_of_not_mem {κ α : Type} [DecidableEq κ] (d : List (κ × α))
    (k : κ) (v : α) (h : k ∉ d.map Prod.fst) : dictRemove (dictInsert d k v) k = d := by
  induction d with
  | nil => simp [dictInsert, dictRemove]
  | cons p rest ih =>
      simp only [List.map_cons, List.mem_cons] at h
      push_neg at h
      have hp : p.1 ≠ k := fun hq => h.1 hq.symm
      simp [dictInsert, dictRemove, hp, ih h.2]

theorem mem_setAdd (s : List String) (k a : String) :
    a ∈ setAdd s k ↔ a ∈ s ∨ a = k := by
  by_cases h : k ∈ s
  · simp only [setAdd, if_pos h]
    constructor
    · exact Or.inl
    · rintro (ha | rfl)
      · exact ha
      · exact h
  · simp [setAdd, if_neg h]

theorem nodup_setAdd (s : List String) (k : String) (h : s.Nodup) : (setAdd s k).Nodup := by
  by_cases hm : k ∈ s
  · simpa [setAdd, if_pos hm] using h
  · simp only [setAdd, if_neg hm]
    simp [List.nodup_append, h, hm]

theorem erase_setAdd_of_not_mem (s : List String) (k : String) (h : k ∉ s) :
    (setAdd s k).erase k = s := by
  simp only [setAdd, if_neg h]
  rw [List.erase_append_right _ h]
  simp

theorem dictFind_foldl_insert_not_mem (ws : List Waiter) (res : Outcome)
    (f0 : List (Nat × Outcome)) (x : Nat) (h : x ∉ ws.map Waiter.wid) :
    dictFind (ws.foldl (fun f w => dictInsert f w.wid res) f0) x = dictFind f0 x := by
  induction ws generalizing f0 with
  | nil => rfl
  | cons w ws ih =>
      simp only [List.map_cons, List.mem_cons] at h
      push_neg at h
      simp only [List.foldl_cons]
      rw [ih _ h.2, dictFind_insert_ne _ _ _ _ h.1]

theorem dictFind_foldl_insert_mem (ws : List Waiter) (res : Outcome)
    (f0 : List (Nat × Outcome)) (x : Nat) (h : x ∈ ws.map Waiter.wid) :
    dictFind (ws.foldl (fun f w => dictInsert f w.wid res) f0) x = some res := by
  induction ws generalizing f0 with
  | nil => simp at h
  | cons w ws ih =>
      by_cases hx : x ∈ ws.map Waiter.wid
      · simpa using ih _ hx
      · simp only [List.map_cons, List.mem_cons] at h
        obtain rfl | h2 := h
        · simp only [List.foldl_cons]
          rw [dictFind_foldl_insert_not_mem _ _ _ _ hx, dictFind_insert_self]
        · exact absurd h2 hx

theorem dictFind_foldl_insert_isSome (ws : List Waiter) (res : Outcome)
    (f0 : List (Nat × Outcome)) (x : Nat)
    (h : (dictFind (ws.foldl (fun f w => dictInsert f w.wid res) f0) x).isSome) :
    x ∈ ws.map Waiter.wid ∨ (dictFind f0 x).isSome := by
  by_cases hx : x ∈ ws.map Waiter.wid
  · exact Or.inl hx
  · rw [dictFind_foldl_insert_not_mem _ _ _ _ hx] at h
    exact Or.inr h

theorem waitWids_waitAppend_self (w : List (String × List Waiter)) (k : String) (x : Waiter) :
    waitWids (waitAppend w k x) k = waitWids w k ++ [x.wid] := by
  simp [waitWids, waitAppend, dictFind_insert_self]

theorem dictFind_waitAppend_ne (w : List (String × List Waiter)) (k k' : String) (x : Waiter)
    (h : k' ≠ k) : dictFind (waitAppend w k x) k' = dictFind w k' :=
  dictFind_insert_ne _ _ _ _ h

theorem waitWids_waitAppend_ne (w : List (String × List Waiter)) (k k' : String) (x : Waiter)
    (h : k' ≠ k) : waitWids (waitAppend w k x) k' = waitWids w k' := by
  simp [waitWids, dictFind_waitAppend_ne _ _ _ _ h]

/-! Characterization of the engine operations, one lemma per branch of
`_process_request`. -/

theorem resolveKey_def (result : Outcome) (fp : String) (s : EngineState) :
    resolveKey result fp s =
      ({ s with
          info := ⟨s.info.spider, s.info.downloading.erase fp,
            dictInsert s.info.downloaded fp (cleanFailure result),
            dictRemove s.info.waiting fp⟩,
          fired := ((dictFind s.info.waiting fp).getD []).foldl
            (fun f w => dictInsert f w.wid (cleanFailure result)) s.fired },
       ((dictFind s.info.waiting fp).getD []).map
         (fun w => .notify fp w (cleanFailure result))) := rfl

theorem processRequest_cached (hooks : Hooks) (r : Request) (s : EngineState) (v : Outcome)
    (h : dictFind s.info.downloaded (request_fingerprint r) = some v) :
    processRequest hooks r s =
      ({ s with fired := dictInsert s.fired s.nextWid v, nextWid := s.nextWid + 1 },
       [.notifyCached (request_fingerprint r) ⟨s.nextWid, r.callback, r.errback⟩ v],
       s.nextWid, detachCallbacks r) := by
  simp only [processRequest, h]

theorem processRequest_inflight (hooks : Hooks) (r : Request) (s : EngineState)
    (h : dictFind s.info.downloaded (request_fingerprint r) = none)
    (h2 : request_fingerprint r ∈ s.info.downloading) :
    processRequest hooks r s =
      ({ s with
          info := { s.info with
            waiting := waitAppend s.info.waiting (request_fingerprint r)
              ⟨s.nextWid, r.callback, r.errback⟩ },
          nextWid := s.nextWid + 1 },
       [], s.nextWid, detachCallbacks r) := by
  simp only [processRequest, h, if_pos h2]

theorem processRequest_shortcircuit (hooks : Hooks) (r : Request) (s : EngineState)
    (o : Outcome)
    (h : dictFind s.info.downloaded (request_fingerprint r) = none)
    (h2 : request_fingerprint r ∉ s.info.downloading)
    (h3 : hooks.media_to_download (detachCallbacks r) = some o) :
    processRequest hooks r s =
      (let fp := request_fingerprint r
       let s2 : EngineState :=
         { s with
            info := { s.info with
              waiting := waitAppend s.info.waiting fp ⟨s.nextWid, r.callback, r.errback⟩,
              downloading := setAdd s.info.downloading fp },
            nextWid := s.nextWid + 1 }
       ((resolveKey o fp s2).1,
        .fetchInvoked fp (detachCallbacks r) :: (resolveKey o fp s2).2,
        s.nextWid, detachCallbacks r)) := by
  simp only [processRequest, h, if_neg h2, h3, _check_media_to_download]

theorem processRequest_pending (hooks : Hooks) (r : Request) (s : EngineState)
    (h : dictFind s.info.downloaded (request_fingerprint r) = none)
    (h2 : request_fingerprint r ∉ s.info.downloading)
    (h3 : hooks.media_to_download (detachCallbacks r) = none) :
    processRequest hooks r s =
      ({ s with
          info := { s.info with
            waiting := waitAppend s.info.waiting (request_fingerprint r)
              ⟨s.nextWid, r.callback, r.errback⟩,
            downloading := setAdd s.info.downloading (request_fingerprint r) },
          nextWid := s.nextWid + 1 },
       [.fetchInvoked (request_fingerprint r) (detachCallbacks r),
        .downloadStarted (request_fingerprint r) (detachCallbacks r)],
       s.nextWid, detachCallbacks r) := by
  simp only [processRequest, h, if_neg h2, h3, _check_media_to_download]

/-! Counter lemmas. -/

theorem countFetch_append (k : String) (a b : List Effect) :
    countFetch k (a ++ b) = countFetch k a + countFetch k b := by
  simp [countFetch, List.filter_append]

theorem countDownload_append (k : String) (a b : List Effect) :
    countDownload k (a ++ b) = countDownload k a + countDownload k b := by
  simp [countDownload, List.filter_append]

theorem notifyOutsFor_append (k : String) (a b : List Effect) :
    notifyOutsFor k (a ++ b) = notifyOutsFor k a ++ notifyOutsFor k b := by
  simp [notifyOutsFor, List.filterMap_append]

theorem drainWidsFor_append (k : String) (a b : List Effect) :
    drainWidsFor k (a ++ b) = drainWidsFor k a ++ drainWidsFor k b := by
  simp [drainWidsFor, List.filterMap_append]

theorem complTids_append (a b : List Effect) :
    complTids (a ++ b) = complTids a ++ complTids b := by
  simp [complTids, List.filterMap_append]

theorem countComplFor_append (i : Nat) (a b : List Effect) :
    countComplFor i (a ++ b) = countComplFor i a + countComplFor i b := by
  simp [countComplFor, List.filter_append]

theorem drainWidsFor_map_notify (k fp : String) (res : Outcome) (ws : List Waiter) :
    drainWidsFor k (ws.map (fun w => Effect.notify fp w res)) =
      if fp = k then ws.map Waiter.wid else [] := by
  induction ws with
  | nil => by_cases h : fp = k <;> simp [drainWidsFor, h]
  | cons w ws ih =>
      by_cases h : fp = k <;>
        simpa [drainWidsFor, h] using congrArg (fun l =>
          (if fp = k then [w.wid] else []) ++ l) ih

theorem notifyOutsFor_map_notify (k fp : String) (res : Outcome) (ws : List Waiter) :
    notifyOutsFor k (ws.map (fun w => Effect.notify fp w res)) =
      if fp = k then ws.map (fun _ => res) else [] := by
  induction ws with
  | nil => by_cases h : fp = k <;> simp [notifyOutsFor, h]
  | cons w ws ih =>
      by_cases h : fp = k <;>
        simpa [notifyOutsFor, h] using congrArg (fun l =>
          (if fp = k then [res] else []) ++ l) ih

theorem countFetch_map_notify (k fp : String) (res : Outcome) (ws : List Waiter) :
    countFetch k (ws.map (fun w => Effect.notify fp w res)) = 0 := by
  induction ws with
  | nil => rfl
  | cons w ws ih => simpa [countFetch, isFetchFor, List.filter_cons] using ih

theorem countDownload_map_notify (k fp : String) (res : Outcome) (ws : List Waiter) :
    countDownload k (ws.map (fun w => Effect.notify fp w res)) = 0 := by
  induction ws with
  | nil => rfl
  | cons w ws ih => simpa [countDownload, isDownloadFor, List.filter_cons] using ih

theorem complTids_map_notify (fp : String) (res : Outcome) (ws : List Waiter) :
    complTids (ws.map (fun w => Effect.notify fp w res)) = [] := by
  induction ws with
  | nil => rfl
  | cons w ws ih => simpa [complTids, List.filterMap_cons] using ih

theorem countComplFor_map_notify (i : Nat) (fp : String) (res : Outcome) (ws : List Waiter) :
    countComplFor i (ws.map (fun w => Effect.notify fp w res)) = 0 := by
  induction ws with
  | nil => rfl
  | cons w ws ih => simpa [countComplFor, List.filter_cons] using ih

theorem notifyOutsFor_single_cached (k fp : String) (w : Waiter) (v : Outcome) :
    notifyOutsFor k [Effect.notifyCached fp w v] = if fp = k then [v] else [] := by
  by_cases h : fp = k <;> simp [notifyOutsFor, h]

theorem notifyOutsFor_pair_fetch_notify (k fp : String) (r : Request) (w : Waiter)
    (res : Outcome) :
    notifyOutsFor k [Effect.fetchInvoked fp r, Effect.notify fp w res] =
      if fp = k then [res] else [] := by
  by_cases h : fp = k <;> simp [notifyOutsFor, h]

theorem drainWidsFor_pair_fetch_notify (k fp : String) (r : Request) (w : Waiter)
    (res : Outcome) :
    drainWidsFor k [Effect.fetchInvoked fp r, Effect.notify fp w res] =
      if fp = k then [w.wid] else [] := by
  by_cases h : fp = k <;> simp [drainWidsFor, h]

theorem countFetch_pair_fetch_notify (k fp : String) (r : Request) (w : Waiter)
    (res : Outcome) :
    countFetch k [Effect.fetchInvoked fp r, Effect.notify fp w res] =
      if fp = k then 1 else 0 := by
  by_cases h : fp = k <;> simp [countFetch, isFetchFor, h]

theorem countDownload_pair_fetch_notify (k fp : String) (r : Request) (w : Waiter)
    (res : Outcome) :
    countDownload k [Effect.fetchInvoked fp r, Effect.notify fp w res] = 0 := by
  simp [countDownload, isDownloadFor]

theorem countFetch_pair_fetch_download (k fp : String) (r r2 : Request) :
    countFetch k [Effect.fetchInvoked fp r, Effect.downloadStarted fp r2] =
      if fp = k then 1 else 0 := by
  by_cases h : fp = k <;> simp [countFetch, isFetchFor, isDownloadFor, h]

theorem countDownload_pair_fetch_download (k fp : String) (r r2 : Request) :
    countDownload k [Effect.fetchInvoked fp r, Effect.downloadStarted fp r2] =
      if fp = k then 1 else 0 := by
  by_cases h : fp = k <;> simp [countDownload, isFetchFor, isDownloadFor, h]

/-- `_process_request` preserves the session invariant. -/
theorem inv_processRequest (hooks : Hooks) (r : Request) (s : EngineState)
    (effs : List Effect) (hinv : Inv hooks s effs) :
    Inv hooks (processRequest hooks r s).1 (effs ++ (processRequest hooks r s).2.1) := by
  cases hc : dictFind s.info.downloaded (request_fingerprint r) with
  | some v =>
      rw [processRequest_cached hooks r s v hc]
      dsimp only
      refine {
        dlNodup := hinv.dlNodup
        waitKeysNodup := hinv.waitKeysNodup
        disj := hinv.disj
        waitInflight := hinv.waitInflight
        waitBound := fun k x hx => Nat.lt_succ_of_lt (hinv.waitBound k x hx)
        firedBound := ?_
        waitFired := ?_
        waitDisj := hinv.waitDisj
        waitSorted := hinv.waitSorted
        fetchCount := ?_
        dlCount := ?_
        notifySame := ?_
        drainSorted := ?_
        drainCache := ?_
        taskTidBound := hinv.taskTidBound
        ctidBound := ?_
        tidsNodup := ?_
        taskWf := hinv.taskWf
        slotOk := ?_
        complOk := ?_ }
      · intro x hx
        by_cases hxw : x = s.nextWid
        · exact lt_of_eq_of_lt hxw (Nat.lt_succ_self _)
        · rw [dictFind_insert_ne _ _ _ _ hxw] at hx
          exact Nat.lt_succ_of_lt (hinv.firedBound x hx)
      · intro k x hx
        have hlt := hinv.waitBound k x hx
        rw [dictFind_insert_ne _ _ _ _ (by omega)]
        exact hinv.waitFired k x hx
      · intro k
        rw [countFetch_append, show countFetch k
          [Effect.notifyCached (request_fingerprint r)
            ⟨s.nextWid, r.callback, r.errback⟩ v] = 0 from rfl, Nat.add_zero]
        exact hinv.fetchCount k
      · intro k
        rw [countFetch_append, countDownload_append,
          show countFetch k [Effect.notifyCached (request_fingerprint r)
            ⟨s.nextWid, r.callback, r.errback⟩ v] = 0 from rfl,
          show countDownload k [Effect.notifyCached (request_fingerprint r)
            ⟨s.nextWid, r.callback, r.errback⟩ v] = 0 from rfl]
        exact hinv.dlCount k
      · intro k o ho
        rw [notifyOutsFor_append] at ho
        rcases List.mem_append.mp ho with ho | ho
        · exact hinv.notifySame k o ho
        · rw [notifyOutsFor_single_cached] at ho
          by_cases hk : request_fingerprint r = k
          · rw [if_pos hk] at ho
            rw [List.mem_singleton] at ho
            subst ho
            rw [← hk]
            exact hc
          · rw [if_neg hk] at ho
            simp at ho
      · intro k
        rw [drainWidsFor_append, show drainWidsFor k
          [Effect.notifyCached (request_fingerprint r)
            ⟨s.nextWid, r.callback, r.errback⟩ v] = [] from rfl, List.append_nil]
        exact hinv.drainSorted k
      · intro k hne
        rw [drainWidsFor_append, show drainWidsFor k
          [Effect.notifyCached (request_fingerprint r)
            ⟨s.nextWid, r.callback, r.errback⟩ v] = [] from rfl, List.append_nil] at hne
        exact hinv.drainCache k hne
      · intro tid h
        rw [complTids_append, show complTids
          [Effect.notifyCached (request_fingerprint r)
            ⟨s.nextWid, r.callback, r.errback⟩ v] = [] from rfl, List.append_nil] at h
        exact hinv.ctidBound tid h
      · rw [complTids_append, show complTids
          [Effect.notifyCached (request_fingerprint r)
            ⟨s.nextWid, r.callback, r.errback⟩ v] = [] from rfl, List.append_nil]
        exact hinv.tidsNodup
      · intro t ht sl hsl
        rcases hinv.slotOk t ht sl hsl with hw | ⟨v2, hf, hdl⟩
        · exact Or.inl hw
        · refine Or.inr ⟨v2, ?_, hdl⟩
          have := hinv.firedBound sl.1 (by simp [hf])
          rw [dictFind_insert_ne _ _ _ _ (by omega)]
          exact hf
      · intro tid it results hmem
        rw [List.mem_append] at hmem
        rcases hmem with hmem | hmem
        · exact hinv.complOk tid it results hmem
        · simp at hmem
  | none =>
      by_cases hm : request_fingerprint r ∈ s.info.downloading
      · rw [processRequest_inflight hooks r s hc hm]
        dsimp only
        rw [List.append_nil]
        refine {
          dlNodup := hinv.dlNodup
          waitKeysNodup := nodup_keys_dictInsert _ _ _ hinv.waitKeysNodup
          disj := hinv.disj
          waitInflight := ?_
          waitBound := ?_
          firedBound := fun x hx => Nat.lt_succ_of_lt (hinv.firedBound x hx)
          waitFired := ?_
          waitDisj := ?_
          waitSorted := ?_
          fetchCount := hinv.fetchCount
          dlCount := hinv.dlCount
          notifySame := hinv.notifySame
          drainSorted := hinv.drainSorted
          drainCache := hinv.drainCache
          taskTidBound := hinv.taskTidBound
          ctidBound := hinv.ctidBound
          tidsNodup := hinv.tidsNodup
          taskWf := hinv.taskWf
          slotOk := ?_
          complOk := hinv.complOk }
        · intro k hk
          by_cases hkfp : k = request_fingerprint r
          · subst hkfp
            exact hm
          · rw [dictFind_waitAppend_ne _ _ _ _ hkfp] at hk
            exact hinv.waitInflight k hk
        · intro k x hx
          by_cases hkfp : k = request_fingerprint r
          · subst hkfp
            rw [waitWids_waitAppend_self] at hx
            rcases List.mem_append.mp hx with hx | hx
            · exact Nat.lt_succ_of_lt (hinv.waitBound _ x hx)
            · rw [List.mem_singleton] at hx
              exact lt_of_eq_of_lt hx (Nat.lt_succ_self _)
          · rw [waitWids_waitAppend_ne _ _ _ _ hkfp] at hx
            exact Nat.lt_succ_of_lt (hinv.waitBound k x hx)
        · intro k x hx
          by_cases hkfp : k = request_fingerprint r
          · subst hkfp
            rw [waitWids_waitAppend_self] at hx
            rcases List.mem_append.mp hx with hx | hx
            · exact hinv.waitFired _ x hx
            · rw [List.mem_singleton] at hx
              subst hx
              show dictFind s.fired s.nextWid = none
              cases hq : dictFind s.fired s.nextWid with
              | none => rfl
              | some v2 =>
                  have := hinv.firedBound s.nextWid (by simp [hq])
                  omega
          · rw [waitWids_waitAppend_ne _ _ _ _ hkfp] at hx
            exact hinv.waitFired k x hx
        · intro k k' hne x hx hx'
          by_cases hkfp : k = request_fingerprint r
          · subst hkfp
            rw [waitWids_waitAppend_self] at hx
            rw [waitWids_waitAppend_ne _ _ _ _ (by exact fun hq => hne hq.symm)] at hx'
            rcases List.mem_append.mp hx with hx | hx
            · exact hinv.waitDisj _ k' hne x hx hx'
            · rw [List.mem_singleton] at hx
              subst hx
              have := hinv.waitBound k' _ hx'
              exact absurd this (by simp)
          · rw [waitWids_waitAppend_ne _ _ _ _ hkfp] at hx
            by_cases hkfp' : k' = request_fingerprint r
            · subst hkfp'
              rw [waitWids_waitAppend_self] at hx'
              rcases List.mem_append.mp hx' with hx' | hx'
              · exact hinv.waitDisj k _ hne x hx hx'
              · rw [List.mem_singleton] at hx'
                subst hx'
                have := hinv.waitBound k _ hx
                exact absurd this (by simp)
            · rw [waitWids_waitAppend_ne _ _ _ _ hkfp'] at hx'
              exact hinv.waitDisj k k' hne x hx hx'
        · intro k
          by_cases hkfp : k = request_fingerprint r
          · subst hkfp
            rw [waitWids_waitAppend_self]
            rw [List.pairwise_append]
            refine ⟨hinv.waitSorted _, List.pairwise_singleton _ _, ?_⟩
            intro a ha b hb
            rw [List.mem_singleton] at hb
            subst hb
            exact hinv.waitBound _ a ha
          · rw [waitWids_waitAppend_ne _ _ _ _ hkfp]
            exact hinv.waitSorted k
        · intro t ht sl hsl
          rcases hinv.slotOk t ht sl hsl with hw | hfired
          · left
            by_cases hkfp : sl.2 = request_fingerprint r
            · rw [hkfp] at hw ⊢
              rw [waitWids_waitAppend_self]
              exact List.mem_append_left _ hw
            · rw [waitWids_waitAppend_ne _ _ _ _ hkfp]
              exact hw
          · exact Or.inr hfired
      · -- unseen key
        have hwn : dictFind s.info.waiting (request_fingerprint r) = none := by
          cases hq : dictFind s.info.waiting (request_fingerprint r) with
          | none => rfl
          | some ws =>
              exact absurd (hinv.waitInflight _ (by simp [hq])) hm
        have hfpk : request_fingerprint r ∉ s.info.waiting.map Prod.fst :=
          (dictFind_eq_none_iff _ _).mp hwn
        cases h3 : hooks.media_to_download (detachCallbacks r) with
        | none =>
            rw [processRequest_pending hooks r s hc hm h3]
            dsimp only
            refine {
              dlNodup := nodup_setAdd _ _ hinv.dlNodup
              waitKeysNodup := nodup_keys_dictInsert _ _ _ hinv.waitKeysNodup
              disj := ?_
              waitInflight := ?_
              waitBound := ?_
              firedBound := fun x hx => Nat.lt_succ_of_lt (hinv.firedBound x hx)
              waitFired := ?_
              waitDisj := ?_
              waitSorted := ?_
              fetchCount := ?_
              dlCount := ?_
              notifySame := ?_
              drainSorted := ?_
              drainCache := ?_
              taskTidBound := hinv.taskTidBound
              ctidBound := ?_
              tidsNodup := ?_
              taskWf := hinv.taskWf
              slotOk := ?_
              complOk := ?_ }
            · intro k hk
              rcases (mem_setAdd _ _ _).mp hk with hk | rfl
              · exact hinv.disj k hk
              · exact hc
            · intro k hk
              by_cases hkfp : k = request_fingerprint r
              · subst hkfp
                exact (mem_setAdd _ _ _).mpr (Or.inr rfl)
              · rw [dictFind_waitAppend_ne _ _ _ _ hkfp] at hk
                exact (mem_setAdd _ _ _).mpr (Or.inl (hinv.waitInflight k hk))
            · intro k x hx
              by_cases hkfp : k = request_fingerprint r
              · subst hkfp
                rw [waitWids_waitAppend_self] at hx
                rcases List.mem_append.mp hx with hx | hx
                · exact Nat.lt_succ_of_lt (hinv.waitBound _ x hx)
                · rw [List.mem_singleton] at hx
                  exact lt_of_eq_of_lt hx (Nat.lt_succ_self _)
              · rw [waitWids_waitAppend_ne _ _ _ _ hkfp] at hx
                exact Nat.lt_succ_of_lt (hinv.waitBound k x hx)
            · intro k x hx
              by_cases hkfp : k = request_fingerprint r
              · subst hkfp
                rw [waitWids_waitAppend_self] at hx
                rcases List.mem_append.mp hx with hx | hx
                · exact hinv.waitFired _ x hx
                · rw [List.mem_singleton] at hx
                  subst hx
                  show dictFind s.fired s.nextWid = none
                  cases hq : dictFind s.fired s.nextWid with
                  | none => rfl
                  | some v2 =>
                      have := hinv.firedBound s.nextWid (by simp [hq])
                      omega
              · rw [waitWids_waitAppend_ne _ _ _ _ hkfp] at hx
                exact hinv.waitFired k x hx
            · intro k k' hne x hx hx'
              by_cases hkfp : k = request_fingerprint r
              · subst hkfp
                rw [waitWids_waitAppend_self] at hx
                rw [waitWids_waitAppend_ne _ _ _ _ (by exact fun hq => hne hq.symm)] at hx'
                rcases List.mem_append.mp hx with hx | hx
                · exact hinv.waitDisj _ k' hne x hx hx'
                · rw [List.mem_singleton] at hx
                  subst hx
                  have := hinv.waitBound k' _ hx'
                  exact absurd this (by simp)
              · rw [waitWids_waitAppend_ne _ _ _ _ hkfp] at hx
                by_cases hkfp' : k' = request_fingerprint r
                · subst hkfp'
                  rw [waitWids_waitAppend_self] at hx'
                  rcases List.mem_append.mp hx' with hx' | hx'
                  · exact hinv.waitDisj k _ hne x hx hx'
                  · rw [List.mem_singleton] at hx'
                    subst hx'
                    have := hinv.waitBound k _ hx
                    exact absurd this (by simp)
                · rw [waitWids_waitAppend_ne _ _ _ _ hkfp'] at hx'
                  exact hinv.waitDisj k k' hne x hx hx'
            · intro k
              by_cases hkfp : k = request_fingerprint r
              · subst hkfp
                rw [waitWids_waitAppend_self]
                rw [List.pairwise_append]
                refine ⟨hinv.waitSorted _, List.pairwise_singleton _ _, ?_⟩
                intro a ha b hb
                rw [List.mem_singleton] at hb
                subst hb
                exact hinv.waitBound _ a ha
              · rw [waitWids_waitAppend_ne _ _ _ _ hkfp]
                exact hinv.waitSorted k
            · intro k
              rw [countFetch_append, countFetch_pair_fetch_download,
                hinv.fetchCount k]
              by_cases hkfp : request_fingerprint r = k
              · subst hkfp
                rw [if_neg (by
                    rintro (hd | hs)
                    · exact hm hd
                    · rw [hc] at hs
                      simp at hs),
                  if_pos (Or.inl ((mem_setAdd _ _ _).mpr (Or.inr rfl))), if_pos rfl]
              · rw [if_neg hkfp, Nat.add_zero]
                have hcond : (k ∈ setAdd s.info.downloading (request_fingerprint r) ∨
                    (dictFind s.info.downloaded k).isSome) ↔
                    (k ∈ s.info.downloading ∨ (dictFind s.info.downloaded k).isSome) := by
                  rw [mem_setAdd]
                  constructor
                  · rintro ((hk | rfl) | hk)
                    · exact Or.inl hk
                    · exact absurd rfl hkfp
                    · exact Or.inr hk
                  · rintro (hk | hk)
                    · exact Or.inl (Or.inl hk)
                    · exact Or.inr hk
                by_cases hcnd : k ∈ s.info.downloading ∨ (dictFind s.info.downloaded k).isSome
                · rw [if_pos hcnd, if_pos (hcond.mpr hcnd)]
                · rw [if_neg hcnd, if_neg (fun hq => hcnd (hcond.mp hq))]
            · intro k
              rw [countFetch_append, countDownload_append,
                countFetch_pair_fetch_download, countDownload_pair_fetch_download]
              exact Nat.add_le_add (hinv.dlCount k) (Nat.le_refl _)
            · intro k o ho
              rw [notifyOutsFor_append] at ho
              rcases List.mem_append.mp ho with ho | ho
              · exact hinv.notifySame k o ho
              · simp [notifyOutsFor] at ho
            · intro k
              rw [drainWidsFor_append, show drainWidsFor k
                [Effect.fetchInvoked (request_fingerprint r) (detachCallbacks r),
                 Effect.downloadStarted (request_fingerprint r) (detachCallbacks r)] = []
                from rfl, List.append_nil]
              exact hinv.drainSorted k
            · intro k hne
              rw [drainWidsFor_append, show drainWidsFor k
                [Effect.fetchInvoked (request_fingerprint r) (detachCallbacks r),
                 Effect.downloadStarted (request_fingerprint r) (detachCallbacks r)] = []
                from rfl, List.append_nil] at hne
              exact hinv.drainCache k hne
            · intro tid h
              rw [complTids_append, show complTids
                [Effect.fetchInvoked (request_fingerprint r) (detachCallbacks r),
                 Effect.downloadStarted (request_fingerprint r) (detachCallbacks r)] = []
                from rfl, List.append_nil] at h
              exact hinv.ctidBound tid h
            · rw [complTids_append, show complTids
                [Effect.fetchInvoked (request_fingerprint r) (detachCallbacks r),
                 Effect.downloadStarted (request_fingerprint r) (detachCallbacks r)] = []
                from rfl, List.append_nil]
              exact hinv.tidsNodup
            · intro t ht sl hsl
              rcases hinv.slotOk t ht sl hsl with hw | hfired
              · left
                by_cases hkfp : sl.2 = request_fingerprint r
                · rw [hkfp] at hw ⊢
                  rw [waitWids_waitAppend_self]
                  exact List.mem_append_left _ hw
                · rw [waitWids_waitAppend_ne _ _ _ _ hkfp]
                  exact hw
              · exact Or.inr hfired
            · intro tid it results hmem
              rw [List.mem_append] at hmem
              rcases hmem with hmem | hmem
              · exact hinv.complOk tid it results hmem
              · simp at hmem
        | some o =>
            have heq : processRequest hooks r s =
                ({ s with
                    info := { s.info with
                      downloaded := dictInsert s.info.downloaded (request_fingerprint r)
                        (cleanFailure o) },
                    fired := dictInsert s.fired s.nextWid (cleanFailure o),
                    nextWid := s.nextWid + 1 },
                 [Effect.fetchInvoked (request_fingerprint r) (detachCallbacks r),
                  Effect.notify (request_fingerprint r)
                    ⟨s.nextWid, r.callback, r.errback⟩ (cleanFailure o)],
                 s.nextWid, detachCallbacks r) := by
              rw [processRequest_shortcircuit hooks r s o hc hm h3]
              dsimp only
              rw [resolveKey_def]
              dsimp only [waitAppend]
              rw [hwn]
              dsimp only [Option.getD_none, List.nil_append]
              rw [dictFind_insert_self]
              dsimp only [Option.getD_some, List.foldl_cons, List.foldl_nil, List.map_cons,
                List.map_nil]
              rw [erase_setAdd_of_not_mem _ _ hm,
                dictRemove_dictInsert_of_not_mem _ _ _ hfpk]
            rw [heq]
            dsimp only
            have hdrains : drainWidsFor (request_fingerprint r) effs = [] := by
              by_cases hd : drainWidsFor (request_fingerprint r) effs = []
              · exact hd
              · have := hinv.drainCache _ hd
                rw [hc] at this
                simp at this
            refine {
              dlNodup := hinv.dlNodup
              waitKeysNodup := hinv.waitKeysNodup
              disj := ?_
              waitInflight := hinv.waitInflight
              waitBound := fun k x hx => Nat.lt_succ_of_lt (hinv.waitBound k x hx)
              firedBound := ?_
              waitFired := ?_
              waitDisj := hinv.waitDisj
              waitSorted := hinv.waitSorted
              fetchCount := ?_
              dlCount := ?_
              notifySame := ?_
              drainSorted := ?_
              drainCache := ?_
              taskTidBound := hinv.taskTidBound
              ctidBound := ?_
              tidsNodup := ?_
              taskWf := hinv.taskWf
              slotOk := ?_
              complOk := ?_ }
            · intro k hk
              have hkfp : k ≠ request_fingerprint r := by
                rintro rfl
                exact hm hk
              rw [dictFind_insert_ne _ _ _ _ hkfp]
              exact hinv.disj k hk
            · intro x hx
              by_cases hxw : x = s.nextWid
              · exact lt_of_eq_of_lt hxw (Nat.lt_succ_self _)
              · rw [dictFind_insert_ne _ _ _ _ hxw] at hx
                exact Nat.lt_succ_of_lt (hinv.firedBound x hx)
            · intro k x hx
              have hlt := hinv.waitBound k x hx
              rw [dictFind_insert_ne _ _ _ _ (by omega)]
              exact hinv.waitFired k x hx
            · intro k
              rw [countFetch_append, countFetch_pair_fetch_notify, hinv.fetchCount k]
              by_cases hkfp : request_fingerprint r = k
              · subst hkfp
                rw [if_neg (by
                    rintro (hd | hs)
                    · exact hm hd
                    · rw [hc] at hs
                      simp at hs),
                  if_pos (Or.inr (by rw [dictFind_insert_self]; rfl)), if_pos rfl]
              · rw [if_neg hkfp, Nat.add_zero]
                have hcache : dictFind (dictInsert s.info.downloaded (request_fingerprint r)
                    (cleanFailure o)) k = dictFind s.info.downloaded k :=
                  dictFind_insert_ne _ _ _ _ (fun hq => hkfp hq.symm)
                rw [hcache]
            · intro k
              rw [countFetch_append, countDownload_append,
                countFetch_pair_fetch_notify, countDownload_pair_fetch_notify,
                Nat.add_zero]
              exact Nat.le_trans (hinv.dlCount k) (Nat.le_add_right _ _)
            · intro k o2 ho
              rw [notifyOutsFor_append] at ho
              rcases List.mem_append.mp ho with ho | ho
              · have hold := hinv.notifySame k o2 ho
                have hkfp : k ≠ request_fingerprint r := by
                  rintro rfl
                  rw [hc] at hold
                  simp at hold
                rw [dictFind_insert_ne _ _ _ _ hkfp]
                exact hold
              · rw [notifyOutsFor_pair_fetch_notify] at ho
                by_cases hkfp : request_fingerprint r = k
                · rw [if_pos hkfp] at ho
                  rw [List.mem_singleton] at ho
                  subst ho
                  rw [← hkfp, dictFind_insert_self]
                · rw [if_neg hkfp] at ho
                  simp at ho
            · intro k
              rw [drainWidsFor_append, drainWidsFor_pair_fetch_notify]
              by_cases hkfp : request_fingerprint r = k
              · rw [if_pos hkfp, ← hkfp, hdrains]
                simp
              · rw [if_neg hkfp, List.append_nil]
                exact hinv.drainSorted k
            · intro k hne
              by_cases hkfp : request_fingerprint r = k
              · rw [← hkfp, dictFind_insert_self]
                rfl
              · rw [drainWidsFor_append, drainWidsFor_pair_fetch_notify,
                  if_neg hkfp, List.append_nil] at hne
                rw [dictFind_insert_ne _ _ _ _ (fun hq => hkfp hq.symm)]
                exact hinv.drainCache k hne
            · intro tid h
              rw [complTids_append, show complTids
                [Effect.fetchInvoked (request_fingerprint r) (detachCallbacks r),
                 Effect.notify (request_fingerprint r)
                   ⟨s.nextWid, r.callback, r.errback⟩ (cleanFailure o)] = []
                from rfl, List.append_nil] at h
              exact hinv.ctidBound tid h
            · rw [complTids_append, show complTids
                [Effect.fetchInvoked (request_fingerprint r) (detachCallbacks r),
                 Effect.notify (request_fingerprint r)
                   ⟨s.nextWid, r.callback, r.errback⟩ (cleanFailure o)] = []
                from rfl, List.append_nil]
              exact hinv.tidsNodup
            · intro t ht sl hsl
              rcases hinv.slotOk t ht sl hsl with hw | ⟨v2, hf, hdl⟩
              · exact Or.inl hw
              · refine Or.inr ⟨v2, ?_, ?_⟩
                · have := hinv.firedBound sl.1 (by simp [hf])
                  rw [dictFind_insert_ne _ _ _ _ (by omega)]
                  exact hf
                · have hkfp : sl.2 ≠ request_fingerprint r := by
                    rintro hq
                    rw [hq, hc] at hdl
                    simp at hdl
                  rw [dictFind_insert_ne _ _ _ _ hkfp]
                  exact hdl
            · intro tid it results hmem
              rw [List.mem_append] at hmem
              rcases hmem with hmem | hmem
              · obtain ⟨rs, hrs, hlen, hval⟩ := hinv.complOk tid it results hmem
                refine ⟨rs, hrs, hlen, ?_⟩
                intro j hj hj2
                obtain ⟨v2, hv2, hres⟩ := hval j hj hj2
                refine ⟨v2, ?_, hres⟩
                have hkfp : request_fingerprint (rs.get ⟨j, hj2⟩) ≠ request_fingerprint r := by
                  rintro hq
                  rw [hq, hc] at hv2
                  simp at hv2
                rw [dictFind_insert_ne _ _ _ _ hkfp]
                exact hv2
              · simp at hmem

/-- Resolving an inflight key preserves the session invariant. -/
theorem inv_resolveKey (hooks : Hooks) (result : Outcome) (fp : String) (s : EngineState)
    (effs : List Effect) (hinv : Inv hooks s effs) (hm : fp ∈ s.info.downloading) :
    Inv hooks (resolveKey result fp s).1 (effs ++ (resolveKey result fp s).2) := by
  have hcn : dictFind s.info.downloaded fp = none := hinv.disj fp hm
  have hdrains : drainWidsFor fp effs = [] := by
    by_cases hd : drainWidsFor fp effs = []
    · exact hd
    · have := hinv.drainCache _ hd
      rw [hcn] at this
      simp at this
  rw [resolveKey_def]
  dsimp only
  refine {
    dlNodup := hinv.dlNodup.erase fp
    waitKeysNodup := nodup_keys_dictRemove _ _ hinv.waitKeysNodup
    disj := ?_
    waitInflight := ?_
    waitBound := ?_
    firedBound := ?_
    waitFired := ?_
    waitDisj := ?_
    waitSorted := ?_
    fetchCount := ?_
    dlCount := ?_
    notifySame := ?_
    drainSorted := ?_
    drainCache := ?_
    taskTidBound := hinv.taskTidBound
    ctidBound := ?_
    tidsNodup := ?_
    taskWf := hinv.taskWf
    slotOk := ?_
    complOk := ?_ }
  · intro k hk
    obtain ⟨hne, hkm⟩ := hinv.dlNodup.mem_erase_iff.mp hk
    rw [dictFind_insert_ne _ _ _ _ hne]
    exact hinv.disj k hkm
  · intro k hk
    by_cases hkfp : k = fp
    · subst hkfp
      rw [dictFind_remove_self _ _ hinv.waitKeysNodup] at hk
      simp at hk
    · rw [dictFind_remove_ne _ _ _ hkfp] at hk
      exact hinv.dlNodup.mem_erase_iff.mpr ⟨hkfp, hinv.waitInflight k hk⟩
  · intro k x hx
    by_cases hkfp : k = fp
    · subst hkfp
      rw [show waitWids (dictRemove s.info.waiting k) k = [] by
        simp [waitWids, dictFind_remove_self _ _ hinv.waitKeysNodup]] at hx
      simp at hx
    · rw [show waitWids (dictRemove s.info.waiting fp) k = waitWids s.info.waiting k by
        simp [waitWids, dictFind_remove_ne _ fp k hkfp]] at hx
      exact hinv.waitBound k x hx
  · intro x hx
    rcases dictFind_foldl_insert_isSome _ _ _ _ hx with hx | hx
    · exact hinv.waitBound fp x hx
    · exact hinv.firedBound x hx
  · intro k x hx
    by_cases hkfp : k = fp
    · subst hkfp
      rw [show waitWids (dictRemove s.info.waiting k) k = [] by
        simp [waitWids, dictFind_remove_self _ _ hinv.waitKeysNodup]] at hx
      simp at hx
    · rw [show waitWids (dictRemove s.info.waiting fp) k = waitWids s.info.waiting k by
        simp [waitWids, dictFind_remove_ne _ fp k hkfp]] at hx
      have hnot : x ∉ ((dictFind s.info.waiting fp).getD []).map Waiter.wid :=
        hinv.waitDisj k fp hkfp x hx
      rw [dictFind_foldl_insert_not_mem _ _ _ _ hnot]
      exact hinv.waitFired k x hx
  · intro k k' hne x hx hx'
    by_cases hkfp : k = fp
    · subst hkfp
      rw [show waitWids (dictRemove s.info.waiting k) k = [] by
        simp [waitWids, dictFind_remove_self _ _ hinv.waitKeysNodup]] at hx
      simp at hx
    · rw [show waitWids (dictRemove s.info.waiting fp) k = waitWids s.info.waiting k by
        simp [waitWids, dictFind_remove_ne _ fp k hkfp]] at hx
      by_cases hkfp' : k' = fp
      · subst hkfp'
        rw [show waitWids (dictRemove s.info.waiting k') k' = [] by
          simp [waitWids, dictFind_remove_self _ _ hinv.waitKeysNodup]] at hx'
        simp at hx'
      · rw [show waitWids (dictRemove s.info.waiting fp) k' = waitWids s.info.waiting k' by
          simp [waitWids, dictFind_remove_ne _ fp k' hkfp']] at hx'
        exact hinv.waitDisj k k' hne x hx hx'
  · intro k
    by_cases hkfp : k = fp
    · subst hkfp
      rw [show waitWids (dictRemove s.info.waiting k) k = [] by
        simp [waitWids, dictFind_remove_self _ _ hinv.waitKeysNodup]]
      exact List.Pairwise.nil
    · rw [show waitWids (dictRemove s.info.waiting fp) k = waitWids s.info.waiting k by
        simp [waitWids, dictFind_remove_ne _ fp k hkfp]]
      exact hinv.waitSorted k
  · intro k
    rw [countFetch_append, countFetch_map_notify, Nat.add_zero, hinv.fetchCount k]
    by_cases hkfp : k = fp
    · subst hkfp
      rw [if_pos (Or.inl hm), if_pos (Or.inr (by rw [dictFind_insert_self]; rfl))]
    · have hmem : k ∈ s.info.downloading.erase fp ↔ k ∈ s.info.downloading :=
        List.mem_erase_of_ne hkfp
      have hcache : dictFind (dictInsert s.info.downloaded fp (cleanFailure result)) k =
          dictFind s.info.downloaded k := dictFind_insert_ne _ _ _ _ hkfp
      rw [hcache]
      by_cases hcnd : k ∈ s.info.downloading ∨ (dictFind s.info.downloaded k).isSome
      · rw [if_pos hcnd, if_pos (by
          rcases hcnd with hcnd | hcnd
          · exact Or.inl (hmem.mpr hcnd)
          · exact Or.inr hcnd)]
      · rw [if_neg hcnd, if_neg (by
          rintro (hq | hq)
          · exact hcnd (Or.inl (hmem.mp hq))
          · exact hcnd (Or.inr hq))]
  · intro k
    rw [countFetch_append, countDownload_append, countFetch_map_notify,
      countDownload_map_notify, Nat.add_zero, Nat.add_zero]
    exact hinv.dlCount k
  · intro k o ho
    rw [notifyOutsFor_append] at ho
    rcases List.mem_append.mp ho with ho | ho
    · have hold := hinv.notifySame k o ho
      have hkfp : k ≠ fp := by
        rintro rfl
        rw [hcn] at hold
        simp at hold
      rw [dictFind_insert_ne _ _ _ _ hkfp]
      exact hold
    · rw [notifyOutsFor_map_notify] at ho
      by_cases hkfp : fp = k
      · rw [if_pos hkfp] at ho
        rcases List.mem_map.mp ho with ⟨w, _, rfl⟩
        rw [← hkfp, dictFind_insert_self]
      · rw [if_neg hkfp] at ho
        simp at ho
  · intro k
    rw [drainWidsFor_append, drainWidsFor_map_notify]
    by_cases hkfp : fp = k
    · rw [if_pos hkfp, ← hkfp, hdrains, List.nil_append]
      exact hinv.waitSorted fp
    · rw [if_neg hkfp, List.append_nil]
      exact hinv.drainSorted k
  · intro k hne
    by_cases hkfp : k = fp
    · subst hkfp
      rw [dictFind_insert_self]
      rfl
    · rw [drainWidsFor_append, drainWidsFor_map_notify,
        if_neg (fun hq => hkfp hq.symm), List.append_nil] at hne
      rw [dictFind_insert_ne _ _ _ _ hkfp]
      exact hinv.drainCache k hne
  · intro tid h
    rw [complTids_append, complTids_map_notify, List.append_nil] at h
    exact hinv.ctidBound tid h
  · rw [complTids_append, complTids_map_notify, List.append_nil]
    exact hinv.tidsNodup
  · intro t ht sl hsl
    rcases hinv.slotOk t ht sl hsl with hw | ⟨v2, hf, hdl⟩
    · by_cases hkfp : sl.2 = fp
      · refine Or.inr ⟨cleanFailure result, ?_, ?_⟩
        · rw [hkfp] at hw
          exact dictFind_foldl_insert_mem _ _ _ _ hw
        · rw [hkfp, dictFind_insert_self]
      · left
        rw [show waitWids (dictRemove s.info.waiting fp) sl.2 = waitWids s.info.waiting sl.2 by
          simp [waitWids, dictFind_remove_ne _ fp sl.2 hkfp]]
        exact hw
    · refine Or.inr ⟨v2, ?_, ?_⟩
      · have hnot : sl.1 ∉ ((dictFind s.info.waiting fp).getD []).map Waiter.wid := by
          intro hq
          have := hinv.waitFired fp sl.1 hq
          rw [this] at hf
          simp at hf
        rw [dictFind_foldl_insert_not_mem _ _ _ _ hnot]
        exact hf
      · have hkfp : sl.2 ≠ fp := by
          rintro rfl
          rw [hcn] at hdl
          simp at hdl
        rw [dictFind_insert_ne _ _ _ _ hkfp]
        exact hdl
  · intro tid it results hmem
    rw [List.mem_append] at hmem
    rcases hmem with hmem | hmem
    · obtain ⟨rs, hrs, hlen, hval⟩ := hinv.complOk tid it results hmem
      refine ⟨rs, hrs, hlen, ?_⟩
      intro j hj hj2
      obtain ⟨v2, hv2, hres⟩ := hval j hj hj2
      refine ⟨v2, ?_, hres⟩
      have hkfp : request_fingerprint (rs.get ⟨j, hj2⟩) ≠ fp := by
        rintro hq
        rw [hq, hcn] at hv2
        simp at hv2
      rw [dictFind_insert_ne _ _ _ _ hkfp]
      exact hv2
    · rcases List.mem_map.mp hmem with ⟨w, _, hw⟩
      simp at hw

/-- A download completion preserves the session invariant. -/
theorem inv_completeFetch (hooks : Hooks) (fp : String) (raw : Outcome) (s : EngineState)
    (effs : List Effect) (hinv : Inv hooks s effs) :
    Inv hooks (completeFetch hooks fp raw s).1 (effs ++ (completeFetch hooks fp raw s).2) := by
  by_cases hm : fp ∈ s.info.downloading
  · rw [show completeFetch hooks fp raw s =
      resolveKey (match raw with
        | .success _ => hooks.media_downloaded raw
        | .failure _ _ _ => hooks.media_failed raw) fp s from by
        simp only [completeFetch, if_pos hm]]
    exact inv_resolveKey hooks _ fp s effs hinv hm
  · rw [show completeFetch hooks fp raw s = (s, []) from by
      simp only [completeFetch, if_neg hm]]
    rw [List.append_nil]
    exact hinv

/-- Closed form of the short-circuit branch: with no other waiter queued for
the key, the pre-fetch outcome is cached at once and the caller's own waiter
is the only one drained. -/
theorem processRequest_shortcircuit_eq (hooks : Hooks) (r : Request) (s : EngineState)
    (o : Outcome)
    (hc : dictFind s.info.downloaded (request_fingerprint r) = none)
    (hm : request_fingerprint r ∉ s.info.downloading)
    (hwn : dictFind s.info.waiting (request_fingerprint r) = none)
    (h3 : hooks.media_to_download (detachCallbacks r) = some o) :
    processRequest hooks r s =
      ({ s with
          info := { s.info with
            downloaded := dictInsert s.info.downloaded (request_fingerprint r)
              (cleanFailure o) },
          fired := dictInsert s.fired s.nextWid (cleanFailure o),
          nextWid := s.nextWid + 1 },
       [Effect.fetchInvoked (request_fingerprint r) (detachCallbacks r),
        Effect.notify (request_fingerprint r)
          ⟨s.nextWid, r.callback, r.errback⟩ (cleanFailure o)],
       s.nextWid, detachCallbacks r) := by
  have hfpk : request_fingerprint r ∉ s.info.waiting.map Prod.fst :=
    (dictFind_eq_none_iff _ _).mp hwn
  rw [processRequest_shortcircuit hooks r s o hc hm h3]
  dsimp only
  rw [resolveKey_def]
  dsimp only [waitAppend]
  rw [hwn]
  dsimp only [Option.getD_none, List.nil_append]
  rw [dictFind_insert_self]
  dsimp only [Option.getD_some, List.foldl_cons, List.foldl_nil, List.map_cons,
    List.map_nil]
  rw [erase_setAdd_of_not_mem _ _ hm,
    dictRemove_dictInsert_of_not_mem _ _ _ hfpk]

/-- Facts about `_process_request` that hold uniformly over its branches: the
returned deferred id is the fresh id, the id counter advances by one, the
returned (mutated) request has its callbacks detached, item tasks and the
task-id counter are untouched, and no `item_completed` is emitted. -/
theorem processRequest_frame (hooks : Hooks) (r : Request) (s : EngineState)
    (effs : List Effect) (hinv : Inv hooks s effs) :
    (processRequest hooks r s).2.2.1 = s.nextWid ∧
    (processRequest hooks r s).2.2.2 = detachCallbacks r ∧
    (processRequest hooks r s).1.nextWid = s.nextWid + 1 ∧
    (processRequest hooks r s).1.tasks = s.tasks ∧
    (processRequest hooks r s).1.nextTid = s.nextTid ∧
    complTids (processRequest hooks r s).2.1 = [] ∧
    (∀ i, countComplFor i (processRequest hooks r s).2.1 = 0) := by
  cases hc : dictFind s.info.downloaded (request_fingerprint r) with
  | some v =>
      rw [processRequest_cached hooks r s v hc]
      exact ⟨rfl, rfl, rfl, rfl, rfl, rfl, fun _ => rfl⟩
  | none =>
      by_cases hm : request_fingerprint r ∈ s.info.downloading
      · rw [processRequest_inflight hooks r s hc hm]
        exact ⟨rfl, rfl, rfl, rfl, rfl, rfl, fun _ => rfl⟩
      · have hwn : dictFind s.info.waiting (request_fingerprint r) = none := by
          cases hq : dictFind s.info.waiting (request_fingerprint r) with
          | none => rfl
          | some ws => exact absurd (hinv.waitInflight _ (by simp [hq])) hm
        cases h3 : hooks.media_to_download (detachCallbacks r) with
        | none =>
            rw [processRequest_pending hooks r s hc hm h3]
            exact ⟨rfl, rfl, rfl, rfl, rfl, rfl, fun _ => rfl⟩
        | some o =>
            rw [processRequest_shortcircuit_eq hooks r s o hc hm hwn h3]
            exact ⟨rfl, rfl, rfl, rfl, rfl, rfl, fun _ => rfl⟩

/-- `_process_request` keeps every consistent deferred slot consistent. -/
theorem processRequest_slotGood (hooks : Hooks) (r : Request) (s : EngineState)
    (effs : List Effect) (hinv : Inv hooks s effs) (sl : Nat × String)
    (hsl : SlotGood s sl) : SlotGood (processRequest hooks r s).1 sl := by
  cases hc : dictFind s.info.downloaded (request_fingerprint r) with
  | some v =>
      rw [processRequest_cached hooks r s v hc]
      rcases hsl with hw | ⟨v2, hf, hdl⟩
      · exact Or.inl hw
      · refine Or.inr ⟨v2, ?_, hdl⟩
        have := hinv.firedBound sl.1 (by simp [hf])
        rw [dictFind_insert_ne _ _ _ _ (by omega)]
        exact hf
  | none =>
      by_cases hm : request_fingerprint r ∈ s.info.downloading
      · rw [processRequest_inflight hooks r s hc hm]
        rcases hsl with hw | hfired
        · left
          by_cases hkfp : sl.2 = request_fingerprint r
          · rw [hkfp] at hw ⊢
            rw [waitWids_waitAppend_self]
            exact List.mem_append_left _ hw
          · rw [waitWids_waitAppend_ne _ _ _ _ hkfp]
            exact hw
        · exact Or.inr hfired
      · have hwn : dictFind s.info.waiting (request_fingerprint r) = none := by
          cases hq : dictFind s.info.waiting (request_fingerprint r) with
          | none => rfl
          | some ws => exact absurd (hinv.waitInflight _ (by simp [hq])) hm
        cases h3 : hooks.media_to_download (detachCallbacks r) with
        | none =>
            rw [processRequest_pending hooks r s hc hm h3]
            rcases hsl with hw | hfired
            · left
              by_cases hkfp : sl.2 = request_fingerprint r
              · rw [hkfp] at hw ⊢
                rw [waitWids_waitAppend_self]
                exact List.mem_append_left _ hw
              · rw [waitWids_waitAppend_ne _ _ _ _ hkfp]
                exact hw
            · exact Or.inr hfired
        | some o =>
            rw [processRequest_shortcircuit_eq hooks r s o hc hm hwn h3]
            rcases hsl with hw | ⟨v2, hf, hdl⟩
            · exact Or.inl hw
            · refine Or.inr ⟨v2, ?_, ?_⟩
              · have := hinv.firedBound sl.1 (by simp [hf])
                rw [dictFind_insert_ne _ _ _ _ (by omega)]
                exact hf
              · have hkfp : sl.2 ≠ request_fingerprint r := by
                  rintro hq
                  rw [hq, hc] at hdl
                  simp at hdl
                rw [dictFind_insert_ne _ _ _ _ hkfp]
                exact hdl

/-- The deferred `_process_request` hands back is itself a consistent slot for
the request's fingerprint. -/
theorem processRequest_newSlotGood (hooks : Hooks) (r : Request) (s : EngineState)
    (effs : List Effect) (hinv : Inv hooks s effs) :
    SlotGood (processRequest hooks r s).1 (s.nextWid, request_fingerprint r) := by
  cases hc : dictFind s.info.downloaded (request_fingerprint r) with
  | some v =>
      rw [processRequest_cached hooks r s v hc]
      exact Or.inr ⟨v, dictFind_insert_self _ _ _, hc⟩
  | none =>
      by_cases hm : request_fingerprint r ∈ s.info.downloading
      · rw [processRequest_inflight hooks r s hc hm]
        left
        rw [waitWids_waitAppend_self]
        exact List.mem_append_right _ (List.mem_singleton_self _)
      · have hwn : dictFind s.info.waiting (request_fingerprint r) = none := by
          cases hq : dictFind s.info.waiting (request_fingerprint r) with
          | none => rfl
          | some ws => exact absurd (hinv.waitInflight _ (by simp [hq])) hm
        cases h3 : hooks.media_to_download (detachCallbacks r) with
        | none =>
            rw [processRequest_pending hooks r s hc hm h3]
            left
            rw [waitWids_waitAppend_self]
            exact List.mem_append_right _ (List.mem_singleton_self _)
        | some o =>
            rw [processRequest_shortcircuit_eq hooks r s o hc hm hwn h3]
            exact Or.inr ⟨cleanFailure o, dictFind_insert_self _ _ _,
              dictFind_insert_self _ _ _⟩

/-! Counters over the completion effects a sweep emits. -/

theorem countFetch_map_completed (k : String) (f : ItemTask → List (Bool × Outcome))
    (ts : List ItemTask) :
    countFetch k (ts.map (fun t => Effect.itemCompleted t.tid t.item (f t))) = 0 := by
  induction ts with
  | nil => rfl
  | cons t ts ih => simpa [countFetch, isFetchFor, List.filter_cons] using ih

theorem countDownload_map_completed (k : String) (f : ItemTask → List (Bool × Outcome))
    (ts : List ItemTask) :
    countDownload k (ts.map (fun t => Effect.itemCompleted t.tid t.item (f t))) = 0 := by
  induction ts with
  | nil => rfl
  | cons t ts ih => simpa [countDownload, isDownloadFor, List.filter_cons] using ih

theorem notifyOutsFor_map_completed (k : String) (f : ItemTask → List (Bool × Outcome))
    (ts : List ItemTask) :
    notifyOutsFor k (ts.map (fun t => Effect.itemCompleted t.tid t.item (f t))) = [] := by
  induction ts with
  | nil => rfl
  | cons t ts ih => simpa [notifyOutsFor, List.filterMap_cons] using ih

theorem drainWidsFor_map_completed (k : String) (f : ItemTask → List (Bool × Outcome))
    (ts : List ItemTask) :
    drainWidsFor k (ts.map (fun t => Effect.itemCompleted t.tid t.item (f t))) = [] := by
  induction ts with
  | nil => rfl
  | cons t ts ih => simpa [drainWidsFor, List.filterMap_cons] using ih

theorem complTids_map_completed (f : ItemTask → List (Bool × Outcome))
    (ts : List ItemTask) :
    complTids (ts.map (fun t => Effect.itemCompleted t.tid t.item (f t))) =
      ts.map ItemTask.tid := by
  induction ts with
  | nil => rfl
  | cons t ts ih => simpa [complTids, List.filterMap_cons] using ih

/-- Sweeping the completed item joins preserves the session invariant. -/
theorem inv_sweep (hooks : Hooks) (s : EngineState) (effs : List Effect)
    (hinv : Inv hooks s effs) :
    Inv hooks (sweep s).1 (effs ++ (sweep s).2) := by
  rw [sweep]
  dsimp only
  refine {
    dlNodup := hinv.dlNodup
    waitKeysNodup := hinv.waitKeysNodup
    disj := hinv.disj
    waitInflight := hinv.waitInflight
    waitBound := hinv.waitBound
    firedBound := hinv.firedBound
    waitFired := hinv.waitFired
    waitDisj := hinv.waitDisj
    waitSorted := hinv.waitSorted
    fetchCount := ?_
    dlCount := ?_
    notifySame := ?_
    drainSorted := ?_
    drainCache := ?_
    taskTidBound := ?_
    ctidBound := ?_
    tidsNodup := ?_
    taskWf := ?_
    slotOk := ?_
    complOk := ?_ }
  · intro k
    rw [countFetch_append, countFetch_map_completed, Nat.add_zero]
    exact hinv.fetchCount k
  · intro k
    rw [countFetch_append, countDownload_append, countFetch_map_completed,
      countDownload_map_completed, Nat.add_zero, Nat.add_zero]
    exact hinv.dlCount k
  · intro k o ho
    rw [notifyOutsFor_append, notifyOutsFor_map_completed, List.append_nil] at ho
    exact hinv.notifySame k o ho
  · intro k
    rw [drainWidsFor_append, drainWidsFor_map_completed, List.append_nil]
    exact hinv.drainSorted k
  · intro k hne
    rw [drainWidsFor_append, drainWidsFor_map_completed, List.append_nil] at hne
    exact hinv.drainCache k hne
  · intro t ht
    exact hinv.taskTidBound t (List.mem_filter.mp ht).1
  · intro tid h
    rw [complTids_append, complTids_map_completed] at h
    rcases List.mem_append.mp h with h | h
    · exact hinv.ctidBound tid h
    · rcases List.mem_map.mp h with ⟨t, ht, rfl⟩
      exact hinv.taskTidBound t (List.mem_filter.mp ht).1
  · rw [complTids_append, complTids_map_completed]
    have hperm : ((s.tasks.filter (taskDone s.fired)).map ItemTask.tid ++
        (s.tasks.filter (fun t => !taskDone s.fired t)).map ItemTask.tid).Perm
        (s.tasks.map ItemTask.tid) := by
      have := (List.filter_append_perm (taskDone s.fired) s.tasks).map ItemTask.tid
      simpa using this
    have hperm2 : ((complTids effs ++ (s.tasks.filter (taskDone s.fired)).map ItemTask.tid) ++
        (s.tasks.filter (fun t => !taskDone s.fired t)).map ItemTask.tid).Perm
        (complTids effs ++ s.tasks.map ItemTask.tid) := by
      rw [List.append_assoc]
      exact hperm.append_left (complTids effs)
    exact hperm2.nodup_iff.mpr hinv.tidsNodup
  · intro t ht
    exact hinv.taskWf t (List.mem_filter.mp ht).1
  · intro t ht sl hsl
    exact hinv.slotOk t (List.mem_filter.mp ht).1 sl hsl
  · intro tid it results hmem
    rw [List.mem_append] at hmem
    rcases hmem with hmem | hmem
    · exact hinv.complOk tid it results hmem
    · rcases List.mem_map.mp hmem with ⟨t, ht, heq⟩
      obtain ⟨htm, htd⟩ := List.mem_filter.mp ht
      cases heq
      obtain ⟨rs, hrs, hlen, hfps⟩ := hinv.taskWf t htm
      refine ⟨rs, hrs, ?_, ?_⟩
      · rw [show (taskResults s.fired t).length = t.slots.length from
          List.length_map _ _]
        exact hlen
      · intro j hj hj2
        have hjs : j < t.slots.length := by
          rw [show (taskResults s.fired t).length = t.slots.length from
            List.length_map _ _] at hj
          exact hj
        have hslmem : t.slots.get ⟨j, hjs⟩ ∈ t.slots := List.get_mem _ _ hjs
        have hdone : (dictFind s.fired (t.slots.get ⟨j, hjs⟩).1).isSome := by
          have := List.all_eq_true.mp htd _ hslmem
          simpa using this
        rcases hinv.slotOk t htm _ hslmem with hw | ⟨v2, hf, hdl⟩
        · have := hinv.waitFired _ _ hw
          rw [this] at hdone
          simp at hdone
        · refine ⟨v2, ?_, ?_⟩
          · rw [← hfps j hjs hj2]
            exact hdl
          · rw [show (taskResults s.fired t).get ⟨j, hj⟩ =
              (match dictFind s.fired (t.slots.get ⟨j, hjs⟩).1 with
                | some v => (!v.isFailure, v)
                | none => (false, Outcome.failure "pending" [] none)) from by
              simp [taskResults, List.get_map]]
            rw [hf]

theorem processRequests_slotGood (hooks : Hooks) (rs : List Request) (s : EngineState)
    (effs : List Effect) (hinv : Inv hooks s effs) (sl : Nat × String)
    (hsl : SlotGood s sl) : SlotGood (processRequests hooks rs s).1 sl := by
  induction rs generalizing s effs with
  | nil => simpa [processRequests] using hsl
  | cons r rest ih =>
      simp only [processRequests]
      exact ih _ _ (inv_processRequest hooks r s effs hinv)
        (processRequest_slotGood hooks r s effs hinv sl hsl)

/-- The submit loop of `process_item` preserves the invariant, creates one
slot per request (in order, keyed by the request's fingerprint), leaves the
task list and task counter alone, and emits no completion. -/
theorem inv_processRequests (hooks : Hooks) (rs : List Request) (s : EngineState)
    (effs : List Effect) (hinv : Inv hooks s effs) :
    Inv hooks (processRequests hooks rs s).1 (effs ++ (processRequests hooks rs s).2.1) ∧
    (processRequests hooks rs s).1.tasks = s.tasks ∧
    (processRequests hooks rs s).1.nextTid = s.nextTid ∧
    complTids (processRequests hooks rs s).2.1 = [] ∧
    (processRequests hooks rs s).2.2.length = rs.length ∧
    (∀ j (hj : j < (processRequests hooks rs s).2.2.length) (hj2 : j < rs.length),
      ((processRequests hooks rs s).2.2.get ⟨j, hj⟩).2 =
        request_fingerprint (rs.get ⟨j, hj2⟩)) ∧
    (∀ sl, sl ∈ (processRequests hooks rs s).2.2 →
      SlotGood (processRequests hooks rs s).1 sl) := by
  induction rs generalizing s effs with
  | nil =>
      refine ⟨by simpa [processRequests] using hinv, rfl, rfl, rfl, rfl, ?_, ?_⟩
      · intro j hj hj2
        simp [processRequests] at hj
      · intro sl hsl
        simp [processRequests] at hsl
  | cons r rest ih =>
      obtain ⟨hwid, hreq, hnw, htasks, hntid, hcompl, hcompl0⟩ :=
        processRequest_frame hooks r s effs hinv
      have hinv1 := inv_processRequest hooks r s effs hinv
      obtain ⟨ihinv, ihtasks, ihntid, ihcompl, ihlen, ihfps, ihslots⟩ :=
        ih (processRequest hooks r s).1 (effs ++ (processRequest hooks r s).2.1) hinv1
      simp only [processRequests]
      refine ⟨?_, ?_, ?_, ?_, ?_, ?_, ?_⟩
      · rw [← List.append_assoc]
        exact ihinv
      · rw [ihtasks, htasks]
      · rw [ihntid, hntid]
      · rw [complTids_append, hcompl, ihcompl]
        rfl
      · simp [ihlen]
      · intro j hj hj2
        cases j with
        | zero =>
            simp only [List.get]
        | succ j2 =>
            simp only [List.get]
            have hj2s : j2 < rest.length := by
              simp at hj2
              omega
            have hjs : j2 < (processRequests hooks rest (processRequest hooks r s).1).2.2.length := by
              simp at hj
              omega
            exact ihfps j2 hjs hj2s
      · intro sl hsl
        rcases List.mem_cons.mp hsl with rfl | hsl
        · rw [hwid]
          exact processRequests_slotGood hooks rest _ _ hinv1 _
            (processRequest_newSlotGood hooks r s effs hinv)
        · exact ihslots sl hsl

theorem nodup_append_singleton {α : Type} (l : List α) (x : α) (h : l.Nodup)
    (hx : x ∉ l) : (l ++ [x]).Nodup := by
  rw [List.nodup_append]
  exact ⟨h, List.nodup_singleton x, by
    intro a ha hax
    rw [List.mem_singleton] at hax
    subst hax
    exact hx ha⟩

/-- `process_item` preserves the session invariant. -/
theorem inv_process_item (hooks : Hooks) (it : Nat) (s : EngineState)
    (effs : List Effect) (hinv : Inv hooks s effs) :
    Inv hooks (process_item hooks it s).1 (effs ++ (process_item hooks it s).2) := by
  cases hg : hooks.get_media_requests it with
  | error e =>
      simp only [process_item, hg]
      refine {
        dlNodup := hinv.dlNodup
        waitKeysNodup := hinv.waitKeysNodup
        disj := hinv.disj
        waitInflight := hinv.waitInflight
        waitBound := hinv.waitBound
        firedBound := hinv.firedBound
        waitFired := hinv.waitFired
        waitDisj := hinv.waitDisj
        waitSorted := hinv.waitSorted
        fetchCount := ?_
        dlCount := ?_
        notifySame := ?_
        drainSorted := ?_
        drainCache := ?_
        taskTidBound := hinv.taskTidBound
        ctidBound := ?_
        tidsNodup := ?_
        taskWf := hinv.taskWf
        slotOk := hinv.slotOk
        complOk := ?_ }
      · intro k
        rw [countFetch_append, show countFetch k [Effect.processItemError it e] = 0 from rfl,
          Nat.add_zero]
        exact hinv.fetchCount k
      · intro k
        rw [countFetch_append, countDownload_append,
          show countFetch k [Effect.processItemError it e] = 0 from rfl,
          show countDownload k [Effect.processItemError it e] = 0 from rfl]
        exact hinv.dlCount k
      · intro k o ho
        rw [notifyOutsFor_append,
          show notifyOutsFor k [Effect.processItemError it e] = [] from rfl,
          List.append_nil] at ho
        exact hinv.notifySame k o ho
      · intro k
        rw [drainWidsFor_append,
          show drainWidsFor k [Effect.processItemError it e] = [] from rfl,
          List.append_nil]
        exact hinv.drainSorted k
      · intro k hne
        rw [drainWidsFor_append,
          show drainWidsFor k [Effect.processItemError it e] = [] from rfl,
          List.append_nil] at hne
        exact hinv.drainCache k hne
      · intro tid h
        rw [complTids_append,
          show complTids [Effect.processItemError it e] = [] from rfl,
          List.append_nil] at h
        exact hinv.ctidBound tid h
      · rw [complTids_append,
          show complTids [Effect.processItemError it e] = [] from rfl,
          List.append_nil]
        exact hinv.tidsNodup
      · intro tid it2 results hmem
        rw [List.mem_append] at hmem
        rcases hmem with hmem | hmem
        · exact hinv.complOk tid it2 results hmem
        · simp at hmem
  | ok rs =>
      simp only [process_item, hg]
      obtain ⟨ihinv, ihtasks, ihntid, ihcompl, ihlen, ihfps, ihslots⟩ :=
        inv_processRequests hooks rs s effs hinv
      refine {
        dlNodup := ihinv.dlNodup
        waitKeysNodup := ihinv.waitKeysNodup
        disj := ihinv.disj
        waitInflight := ihinv.waitInflight
        waitBound := ihinv.waitBound
        firedBound := ihinv.firedBound
        waitFired := ihinv.waitFired
        waitDisj := ihinv.waitDisj
        waitSorted := ihinv.waitSorted
        fetchCount := ihinv.fetchCount
        dlCount := ihinv.dlCount
        notifySame := ihinv.notifySame
        drainSorted := ihinv.drainSorted
        drainCache := ihinv.drainCache
        taskTidBound := ?_
        ctidBound := ?_
        tidsNodup := ?_
        taskWf := ?_
        slotOk := ?_
        complOk := ihinv.complOk }
      · intro t ht
        rcases List.mem_append.mp ht with ht | ht
        · exact Nat.lt_succ_of_lt (ihinv.taskTidBound t ht)
        · rw [List.mem_singleton] at ht
          subst ht
          exact Nat.lt_succ_self _
      · intro tid h
        exact Nat.lt_succ_of_lt (ihinv.ctidBound tid h)
      · rw [List.map_append, ← List.append_assoc]
        refine nodup_append_singleton _ _ ihinv.tidsNodup ?_
        intro hmem
        rcases List.mem_append.mp hmem with hmem | hmem
        · exact absurd (ihinv.ctidBound _ hmem) (Nat.lt_irrefl _)
        · rcases List.mem_map.mp hmem with ⟨t, ht, htid⟩
          exact absurd (htid ▸ ihinv.taskTidBound t ht) (Nat.lt_irrefl _)
      · intro t ht
        rcases List.mem_append.mp ht with ht | ht
        · exact ihinv.taskWf t ht
        · rw [List.mem_singleton] at ht
          subst ht
          exact ⟨rs, hg, ihlen, ihfps⟩
      · intro t ht sl hsl
        rcases List.mem_append.mp ht with ht | ht
        · exact ihinv.slotOk t ht sl hsl
        · rw [List.mem_singleton] at ht
          subst ht
          exact ihslots sl hsl

/-- One event step preserves the session invariant. -/
theorem inv_step (hooks : Hooks) (s : EngineState) (effs : List Effect) (ev : Event)
    (hinv : Inv hooks s effs) :
    Inv hooks (step hooks s ev).1 (effs ++ (step hooks s ev).2) := by
  cases ev with
  | submitItem it =>
      have h1 := inv_process_item hooks it s effs hinv
      have h2 := inv_sweep hooks _ _ h1
      simp only [step]
      rw [← List.append_assoc]
      exact h2
  | completeDownload fp raw =>
      have h1 := inv_completeFetch hooks fp raw s effs hinv
      have h2 := inv_sweep hooks _ _ h1
      simp only [step]
      rw [← List.append_assoc]
      exact h2

/-- The fresh session state `open_spider` installs satisfies the invariant
with an empty log. -/
theorem inv_fresh (hooks : Hooks) (spider : Nat) :
    Inv hooks (freshState spider) [] := by
  refine {
    dlNodup := List.nodup_nil
    waitKeysNodup := List.nodup_nil
    disj := ?_
    waitInflight := ?_
    waitBound := ?_
    firedBound := ?_
    waitFired := ?_
    waitDisj := ?_
    waitSorted := ?_
    fetchCount := ?_
    dlCount := ?_
    notifySame := ?_
    drainSorted := ?_
    drainCache := ?_
    taskTidBound := ?_
    ctidBound := ?_
    tidsNodup := List.nodup_nil
    taskWf := ?_
    slotOk := ?_
    complOk := ?_ }
  all_goals
    intros
    simp_all [freshState, SpiderInfo.fresh, waitWids, dictFind, countFetch, countDownload,
      notifyOutsFor, drainWidsFor, complTids]

theorem inv_runFrom (hooks : Hooks) (s : EngineState) (effs : List Effect)
    (evs : List Event) (hinv : Inv hooks s effs) :
    Inv hooks (runFrom hooks s evs).1 (effs ++ (runFrom hooks s evs).2) := by
  induction evs generalizing s effs with
  | nil => simpa [runFrom] using hinv
  | cons ev evs ih =>
      simp only [runFrom]
      have h1 := inv_step hooks s effs ev hinv
      have h2 := ih _ _ h1
      rw [← List.append_assoc]
      exact h2

/-- The invariant holds of every reachable state and its effect log. -/
theorem inv_run (hooks : Hooks) (spider : Nat) (events : List Event) :
    Inv hooks (run hooks spider events).1 (run hooks spider events).2 := by
  have := inv_runFrom hooks (freshState spider) [] events (inv_fresh hooks spider)
  simpa [run] using this

/-! Conservation of item joins: every non-raising `process_item` call either
has completed (one `item_completed` invocation) or is still pending. -/

theorem countComplFor_cons_fetch (i : Nat) (fp : String) (r : Request) (effs : List Effect) :
    countComplFor i (Effect.fetchInvoked fp r :: effs) = countComplFor i effs := by
  simp [countComplFor, List.filter_cons]

theorem countComplFor_map_completed_eq (i : Nat) (f : ItemTask → List (Bool × Outcome))
    (ts : List ItemTask) :
    countComplFor i (ts.map (fun t => Effect.itemCompleted t.tid t.item (f t))) =
      countPendFor i ts := by
  induction ts with
  | nil => rfl
  | cons t ts ih =>
      by_cases h : t.item = i <;>
        simp [countComplFor, countPendFor, List.filter_cons, h] at ih ⊢ <;>
        omega

theorem countPendFor_append (i : Nat) (a b : List ItemTask) :
    countPendFor i (a ++ b) = countPendFor i a + countPendFor i b := by
  simp [countPendFor, List.filter_append]

/-- `_process_request` emits no completion and does not touch the item joins. -/
theorem processRequest_pure (hooks : Hooks) (r : Request) (s : EngineState) (i : Nat) :
    countComplFor i (processRequest hooks r s).2.1 = 0 ∧
    (processRequest hooks r s).1.tasks = s.tasks := by
  cases hc : dictFind s.info.downloaded (request_fingerprint r) with
  | some v =>
      rw [processRequest_cached hooks r s v hc]
      exact ⟨rfl, rfl⟩
  | none =>
      by_cases hm : request_fingerprint r ∈ s.info.downloading
      · rw [processRequest_inflight hooks r s hc hm]
        exact ⟨rfl, rfl⟩
      · cases h3 : hooks.media_to_download (detachCallbacks r) with
        | none =>
            rw [processRequest_pending hooks r s hc hm h3]
            exact ⟨rfl, rfl⟩
        | some o =>
            rw [processRequest_shortcircuit hooks r s o hc hm h3]
            dsimp only
            rw [resolveKey_def]
            dsimp only
            exact ⟨by rw [countComplFor_cons_fetch, countComplFor_map_notify], rfl⟩

theorem processRequests_pure (hooks : Hooks) (rs : List Request) (s : EngineState) (i : Nat) :
    countComplFor i (processRequests hooks rs s).2.1 = 0 ∧
    (processRequests hooks rs s).1.tasks = s.tasks := by
  induction rs generalizing s with
  | nil => exact ⟨rfl, rfl⟩
  | cons r rest ih =>
      simp only [processRequests]
      obtain ⟨hc1, ht1⟩ := processRequest_pure hooks r s i
      obtain ⟨hc2, ht2⟩ := ih (processRequest hooks r s).1
      exact ⟨by rw [countComplFor_append, hc1, hc2], by rw [ht2, ht1]⟩

theorem completeFetch_pure (hooks : Hooks) (fp : String) (raw : Outcome) (s : EngineState)
    (i : Nat) :
    countComplFor i (completeFetch hooks fp raw s).2 = 0 ∧
    (completeFetch hooks fp raw s).1.tasks = s.tasks := by
  by_cases hm : fp ∈ s.info.downloading
  · simp only [completeFetch, if_pos hm]
    rw [resolveKey_def]
    dsimp only
    exact ⟨countComplFor_map_notify i fp _ _, rfl⟩
  · simp [completeFetch, hm, countComplFor]

theorem sweep_conservation (i : Nat) (s : EngineState) :
    countComplFor i (sweep s).2 + countPendFor i (sweep s).1.tasks =
      countPendFor i s.tasks := by
  rw [sweep]
  dsimp only
  rw [countComplFor_map_completed_eq]
  have hperm := List.filter_append_perm (taskDone s.fired) s.tasks
  have h2 := (hperm.filter (fun t => decide (t.item = i))).length_eq
  rw [List.filter_append] at h2
  simpa [countPendFor, List.length_append] using h2

theorem step_conservation (hooks : Hooks) (i : Nat) (s : EngineState) (ev : Event) :
    countComplFor i (step hooks s ev).2 + countPendFor i (step hooks s ev).1.tasks =
      countPendFor i s.tasks + countSubmitOk hooks i [ev] := by
  cases ev with
  | completeDownload fp raw =>
      simp only [step]
      rw [countComplFor_append]
      obtain ⟨hc, ht⟩ := completeFetch_pure hooks fp raw s i
      rw [hc, Nat.zero_add]
      rw [show countSubmitOk hooks i [Event.completeDownload fp raw] = 0 from rfl,
        Nat.add_zero, ← ht]
      exact sweep_conservation i _
  | submitItem it =>
      simp only [step]
      rw [countComplFor_append]
      cases hg : hooks.get_media_requests it with
      | error e =>
          simp only [process_item, hg]
          rw [show countComplFor i [Effect.processItemError it e] = 0 from rfl, Nat.zero_add]
          rw [show countSubmitOk hooks i [Event.submitItem it] = 0 from by
            simp [countSubmitOk, List.filter_cons, hg], Nat.add_zero]
          exact sweep_conservation i _
      | ok rs =>
          simp only [process_item, hg]
          obtain ⟨hc, ht⟩ := processRequests_pure hooks rs s i
          rw [hc, Nat.zero_add]
          have hsweep := sweep_conservation i
            ({ (processRequests hooks rs s).1 with
                tasks := (processRequests hooks rs s).1.tasks ++
                  [⟨(processRequests hooks rs s).1.nextTid, it, (processRequests hooks rs s).2.2⟩],
                nextTid := (processRequests hooks rs s).1.nextTid + 1 })
          rw [hsweep]
          dsimp only
          rw [countPendFor_append, ht]
          by_cases hit : it = i
          · have hg2 : hooks.get_media_requests i = .ok rs := by
              rw [← hit]
              exact hg
            rw [show countSubmitOk hooks i [Event.submitItem it] = 1 from by
              simp [countSubmitOk, List.filter_cons, hit, hg2],
              show countPendFor i [(⟨(processRequests hooks rs s).1.nextTid, it,
                (processRequests hooks rs s).2.2⟩ : ItemTask)] = 1 from by
              simp [countPendFor, List.filter_cons, hit]]
          · rw [show countSubmitOk hooks i [Event.submitItem it] = 0 from by
              simp [countSubmitOk, List.filter_cons, hit],
              show countPendFor i [(⟨(processRequests hooks rs s).1.nextTid, it,
                (processRequests hooks rs s).2.2⟩ : ItemTask)] = 0 from by
              simp [countPendFor, List.filter_cons, hit]]

theorem length_filter_cons {α : Type} (p : α → Bool) (x : α) (l : List α) :
    (List.filter p (x :: l)).length =
      (List.filter p [x]).length + (List.filter p l).length := by
  by_cases h : p x <;> simp [List.filter_cons, h] <;> omega

theorem countSubmitOk_cons (hooks : Hooks) (i : Nat) (ev : Event) (evs : List Event) :
    countSubmitOk hooks i (ev :: evs) =
      countSubmitOk hooks i [ev] + countSubmitOk hooks i evs :=
  length_filter_cons _ ev evs

theorem runFrom_conservation (hooks : Hooks) (i : Nat) (s : EngineState)
    (evs : List Event) :
    countComplFor i (runFrom hooks s evs).2 + countPendFor i (runFrom hooks s evs).1.tasks =
      countPendFor i s.tasks + countSubmitOk hooks i evs := by
  induction evs generalizing s with
  | nil => simp [runFrom, countSubmitOk, countComplFor]
  | cons ev evs ih =>
      simp only [runFrom]
      rw [countComplFor_append]
      have hstep := step_conservation hooks i s ev
      have hih := ih (step hooks s ev).1
      rw [countSubmitOk_cons]
      omega

/-- Conservation over a whole session: each non-raising submission for item
`i` is accounted for by exactly one completion or one still-pending join. -/
theorem run_conservation (hooks : Hooks) (spider : Nat) (events : List Event) (i : Nat) :
    countSubmitOk hooks i events =
      countComplFor i (run hooks spider events).2 +
        countPendFor i (run hooks spider events).1.tasks := by
  have := runFrom_conservation hooks i (freshState spider) events
  rw [show countPendFor i (freshState spider).tasks = 0 from rfl, Nat.zero_add] at this
  exact this.symm

/-! Monotonicity of `Touched`: once a key enters the coordinator it stays
inflight or cached for the rest of the session. -/

theorem touched_processRequest (hooks : Hooks) (r : Request) (s : EngineState) (k : String)
    (h : Touched k s) : Touched k (processRequest hooks r s).1 := by
  cases hc : dictFind s.info.downloaded (request_fingerprint r) with
  | some v =>
      rw [processRequest_cached hooks r s v hc]
      exact h
  | none =>
      by_cases hm : request_fingerprint r ∈ s.info.downloading
      · rw [processRequest_inflight hooks r s hc hm]
        exact h
      · cases h3 : hooks.media_to_download (detachCallbacks r) with
        | none =>
            rw [processRequest_pending hooks r s hc hm h3]
            rcases h with h | h
            · exact Or.inl ((mem_setAdd _ _ _).mpr (Or.inl h))
            · exact Or.inr h
        | some o =>
            rw [processRequest_shortcircuit hooks r s o hc hm h3]
            dsimp only
            rw [resolveKey_def]
            dsimp only
            by_cases hkfp : k = request_fingerprint r
            · subst hkfp
              exact Or.inr (by rw [dictFind_insert_self]; rfl)
            · rcases h with h | h
              · refine Or.inl ?_
                rw [List.mem_erase_of_ne hkfp]
                exact (mem_setAdd _ _ _).mpr (Or.inl h)
              · refine Or.inr ?_
                rw [dictFind_insert_ne _ _ _ _ hkfp]
                exact h

theorem touched_processRequest_self (hooks : Hooks) (r : Request) (s : EngineState) :
    Touched (request_fingerprint r) (processRequest hooks r s).1 := by
  cases hc : dictFind s.info.downloaded (request_fingerprint r) with
  | some v =>
      rw [processRequest_cached hooks r s v hc]
      exact Or.inr (by rw [hc]; rfl)
  | none =>
      by_cases hm : request_fingerprint r ∈ s.info.downloading
      · rw [processRequest_inflight hooks r s hc hm]
        exact Or.inl hm
      · cases h3 : hooks.media_to_download (detachCallbacks r) with
        | none =>
            rw [processRequest_pending hooks r s hc hm h3]
            exact Or.inl ((mem_setAdd _ _ _).mpr (Or.inr rfl))
        | some o =>
            rw [processRequest_shortcircuit hooks r s o hc hm h3]
            dsimp only
            rw [resolveKey_def]
            dsimp only
            exact Or.inr (by rw [dictFind_insert_self]; rfl)

theorem touched_processRequests (hooks : Hooks) (rs : List Request) (s : EngineState)
    (k : String) (h : Touched k s) : Touched k (processRequests hooks rs s).1 := by
  induction rs generalizing s with
  | nil => exact h
  | cons r rest ih =>
      simp only [processRequests]
      exact ih _ (touched_processRequest hooks r s k h)

theorem touched_processRequests_mem (hooks : Hooks) (rs : List Request) (s : EngineState)
    (r : Request) (hr : r ∈ rs) :
    Touched (request_fingerprint r) (processRequests hooks rs s).1 := by
  induction rs generalizing s with
  | nil => simp at hr
  | cons r2 rest ih =>
      simp only [processRequests]
      rcases List.mem_cons.mp hr with rfl | hr
      · exact touched_processRequests hooks rest _ _
          (touched_processRequest_self hooks r s)
      · exact ih _ hr

theorem touched_completeFetch (hooks : Hooks) (fp : String) (raw : Outcome)
    (s : EngineState) (k : String) (h : Touched k s) :
    Touched k (completeFetch hooks fp raw s).1 := by
  by_cases hm : fp ∈ s.info.downloading
  · simp only [completeFetch, if_pos hm]
    rw [resolveKey_def]
    dsimp only
    by_cases hkfp : k = fp
    · subst hkfp
      exact Or.inr (by rw [dictFind_insert_self]; rfl)
    · rcases h with h | h
      · refine Or.inl ?_
        rw [List.mem_erase_of_ne hkfp]
        exact h
      · refine Or.inr ?_
        rw [dictFind_insert_ne _ _ _ _ hkfp]
        exact h
  · simp only [completeFetch, if_neg hm]
    exact h

theorem touched_sweep (s : EngineState) (k : String) (h : Touched k s) :
    Touched k (sweep s).1 := h

theorem touched_step (hooks : Hooks) (s : EngineState) (ev : Event) (k : String)
    (h : Touched k s) : Touched k (step hooks s ev).1 := by
  cases ev with
  | submitItem it =>
      simp only [step]
      refine touched_sweep _ k ?_
      cases hg : hooks.get_media_requests it with
      | error e =>
          simp only [process_item, hg]
          exact h
      | ok rs =>
          simp only [process_item, hg]
          exact touched_processRequests hooks rs s k h
  | completeDownload fp raw =>
      simp only [step]
      exact touched_sweep _ k (touched_completeFetch hooks fp raw s k h)

theorem touched_runFrom (hooks : Hooks) (s : EngineState) (evs : List Event) (k : String)
    (h : Touched k s) : Touched k (runFrom hooks s evs).1 := by
  induction evs generalizing s with
  | nil => exact h
  | cons ev evs ih =>
      simp only [runFrom]
      exact ih _ (touched_step hooks s ev k h)

theorem touched_step_submit (hooks : Hooks) (s : EngineState) (it : Nat)
    (rs : List Request) (r : Request) (hg : hooks.get_media_requests it = .ok rs)
    (hr : r ∈ rs) :
    Touched (request_fingerprint r) (step hooks s (.submitItem it)).1 := by
  simp only [step]
  refine touched_sweep _ _ ?_
  simp only [process_item, hg]
  exact touched_processRequests_mem hooks rs s r hr

/-! After each step the pending joins are exactly the incomplete ones. -/

theorem sweep_allPending (s : EngineState) :
    ∀ t, t ∈ (sweep s).1.tasks → taskDone (sweep s).1.fired t = false := by
  intro t ht
  rw [sweep] at ht ⊢
  dsimp only at ht ⊢
  have := (List.mem_filter.mp ht).2
  simpa using this

theorem step_allPending (hooks : Hooks) (s : EngineState) (ev : Event) :
    ∀ t, t ∈ (step hooks s ev).1.tasks →
      taskDone (step hooks s ev).1.fired t = false := by
  cases ev with
  | submitItem it =>
      simp only [step]
      exact sweep_allPending _
  | completeDownload fp raw =>
      simp only [step]
      exact sweep_allPending _

theorem runFrom_allPending (hooks : Hooks) (s : EngineState) (evs : List Event)
    (h0 : ∀ t, t ∈ s.tasks → taskDone s.fired t = false) :
    ∀ t, t ∈ (runFrom hooks s evs).1.tasks →
      taskDone (runFrom hooks s evs).1.fired t = false := by
  induction evs generalizing s with
  | nil => simpa [runFrom] using h0
  | cons ev evs ih =>
      simp only [runFrom]
      exact ih _ (step_allPending hooks s ev)

theorem run_allPending (hooks : Hooks) (spider : Nat) (events : List Event) :
    ∀ t, t ∈ (run hooks spider events).1.tasks →
      taskDone (run hooks spider events).1.fired t = false :=
  runFrom_allPending hooks (freshState spider) events (by intro t ht; simp [freshState] at ht)

/-- A sweep over a state with no completed join is a no-op. -/
theorem sweep_id (s : EngineState)
    (h : ∀ t, t ∈ s.tasks → taskDone s.fired t = false) : sweep s = (s, []) := by
  rw [sweep]
  have h1 : s.tasks.filter (fun t => !taskDone s.fired t) = s.tasks :=
    List.filter_eq_self.mpr (by intro t ht; simp [h t ht])
  have h2 : s.tasks.filter (taskDone s.fired) = [] :=
    List.filter_eq_nil_iff.mpr (by intro t ht; simp [h t ht])
  rw [h1, h2]
  rfl

/-- Decomposition of a run. -/
theorem runFrom_append (hooks : Hooks) (s : EngineState) (a b : List Event) :
    runFrom hooks s (a ++ b) =
      ((runFrom hooks (runFrom hooks s a).1 b).1,
       (runFrom hooks s a).2 ++ (runFrom hooks (runFrom hooks s a).1 b).2) := by
  induction a generalizing s with
  | nil => simp [runFrom]
  | cons ev a ih =>
      simp only [List.cons_append, runFrom]
      rw [show (a.append b) = a ++ b from rfl, ih]
      simp [List.append_assoc]

/-! The claim theorems. -/

/-- C9.  Session isolation: `open_spider` installs completely fresh, empty
session state — empty inflight set, empty cache, empty waiters map — whatever
the prior pipeline state was, so no cached outcome or inflight key from any
prior session is visible to any submit made in the new session; the new
session's entire behaviour coincides with a run from scratch. -/
theorem open_spider_fresh_session (p : PipelineObj) (spider : Nat) :
    open_spider p spider = ⟨freshState spider⟩ ∧
    (open_spider p spider).spiderinfo.info.downloading = [] ∧
    (open_spider p spider).spiderinfo.info.waiting = [] ∧
    (∀ k, dictFind (open_spider p spider).spiderinfo.info.downloaded k = none) ∧
    (∀ hooks events, runFrom hooks (open_spider p spider).spiderinfo events =
      run hooks spider events) :=
  ⟨rfl, rfl, rfl, fun _ => rfl, fun _ _ => rfl⟩

/-- C5.  State invariant: in every reachable state, a key in the inflight set
has no cache entry (at most one of inflight/cached), a key with a pending
waiter-list entry is inflight, and resolving a key deletes its waiter-list
entry. -/
theorem state_invariant (hooks : Hooks) (spider : Nat) (events : List Event) :
    (∀ k, k ∈ (run hooks spider events).1.info.downloading →
      dictFind (run hooks spider events).1.info.downloaded k = none) ∧
    (∀ k, (dictFind (run hooks spider events).1.info.waiting k).isSome →
      k ∈ (run hooks spider events).1.info.downloading) ∧
    (∀ result fp,
      dictFind (resolveKey result fp (run hooks spider events).1).1.info.waiting fp = none) := by
  refine ⟨(inv_run hooks spider events).disj, (inv_run hooks spider events).waitInflight, ?_⟩
  intro result fp
  rw [resolveKey_def]
  dsimp only
  exact dictFind_remove_self _ _ (inv_run hooks spider events).waitKeysNodup

/-- C5 witness: after submitting item 0, key `GET a` is inflight and has no
cached outcome. -/
theorem state_invariant_witness :
    "GET a" ∈ (run demoHooks 0 [Event.submitItem 0]).1.info.downloading ∧
    dictFind (run demoHooks 0 [Event.submitItem 0]).1.info.downloaded "GET a" = none := by
  refine ⟨by decide, ?_⟩
  exact (state_invariant demoHooks 0 [Event.submitItem 0]).1 "GET a" (by decide)

/-- C4.  FIFO fan-out: in every reachable state the waiter queue of every key
lists waiters in strictly increasing id order (ids are handed out in submit
arrival order), the drain of a resolution notifies exactly that queue in queue
order, and hence the drain notifications for any key recorded in the log are
in strictly increasing (arrival) order. -/
theorem fifo_fanout (hooks : Hooks) (spider : Nat) (events : List Event) (k : String) :
    ((drainWidsFor k (run hooks spider events).2).Pairwise (· < ·)) ∧
    ((waitWids (run hooks spider events).1.info.waiting k).Pairwise (· < ·)) ∧
    (∀ result fp, (resolveKey result fp (run hooks spider events).1).2 =
      ((dictFind (run hooks spider events).1.info.waiting fp).getD []).map
        (fun w => Effect.notify fp w (cleanFailure result))) := by
  refine ⟨(inv_run hooks spider events).drainSorted k,
    (inv_run hooks spider events).waitSorted k, ?_⟩
  intro result fp
  rw [resolveKey_def]

/-- C7.  Failure sanitization: resolving a key with a failure outcome, in any
reachable state, stores the failure with its captured frames stripped and its
stack dropped (a record of bounded shape), removes the key from the inflight
set, deletes its waiter entry, and drains every queued waiter with the
sanitized outcome, in queue order. -/
theorem failure_sanitized (hooks : Hooks) (spider : Nat) (events : List Event)
    (e : String) (fr : List String) (st : Option String) (fp : String) :
    cleanFailure (.failure e fr st) = .failure e [] none ∧
    dictFind (resolveKey (.failure e fr st) fp
        (run hooks spider events).1).1.info.downloaded fp =
      some (.failure e [] none) ∧
    (resolveKey (.failure e fr st) fp (run hooks spider events).1).1.info.downloading =
      (run hooks spider events).1.info.downloading.erase fp ∧
    dictFind (resolveKey (.failure e fr st) fp
        (run hooks spider events).1).1.info.waiting fp = none ∧
    (resolveKey (.failure e fr st) fp (run hooks spider events).1).2 =
      ((dictFind (run hooks spider events).1.info.waiting fp).getD []).map
        (fun w => Effect.notify fp w (.failure e [] none)) := by
  refine ⟨rfl, ?_, ?_, ?_, ?_⟩
  · rw [resolveKey_def]
    dsimp only
    rw [show cleanFailure (.failure e fr st) = .failure e [] none from rfl,
      dictFind_insert_self]
  · rw [resolveKey_def]
  · rw [resolveKey_def]
    dsimp only
    exact dictFind_remove_self _ _ (inv_run hooks spider events).waitKeysNodup
  · rw [resolveKey_def]
    rfl

/-- C2.  Cache correctness including failure caching: a submit for an
already-resolved key is answered synchronously from the cache with the stored
outcome — a cached failure is returned as that failure — the session state's
registries are untouched, the caller's deferred fires at once with the stored
outcome, and no fetch chain and no download are started (no retry ever). -/
theorem cache_hit_synchronous (hooks : Hooks) (r : Request) (s : EngineState) (v : Outcome)
    (h : dictFind s.info.downloaded (request_fingerprint r) = some v) :
    processRequest hooks r s =
      ({ s with fired := dictInsert s.fired s.nextWid v, nextWid := s.nextWid + 1 },
       [.notifyCached (request_fingerprint r) ⟨s.nextWid, r.callback, r.errback⟩ v],
       s.nextWid, detachCallbacks r) ∧
    (processRequest hooks r s).1.info = s.info ∧
    dictFind (processRequest hooks r s).1.fired s.nextWid = some v ∧
    countFetch (request_fingerprint r) (processRequest hooks r s).2.1 = 0 ∧
    countDownload (request_fingerprint r) (processRequest hooks r s).2.1 = 0 := by
  have heq := processRequest_cached hooks r s v h
  refine ⟨heq, ?_, ?_, ?_, ?_⟩
  · rw [heq]
  · rw [heq]
    dsimp only
    exact dictFind_insert_self _ _ _
  · rw [heq]
    rfl
  · rw [heq]
    rfl

/-- C2 witness: a submit against a state caching a success for `GET a` fires
synchronously with the cached value and starts nothing. -/
theorem cache_hit_synchronous_witness :
    dictFind cachedDemoState.info.downloaded (request_fingerprint reqA) =
      some (.success "va") ∧
    (processRequest demoHooks reqA cachedDemoState).2.1 =
      [.notifyCached "GET a" ⟨7, some 1, none⟩ (.success "va")] ∧
    countFetch "GET a" (processRequest demoHooks reqA cachedDemoState).2.1 = 0 := by
  have h : dictFind cachedDemoState.info.downloaded (request_fingerprint reqA) =
      some (.success "va") := by decide
  have hthm := cache_hit_synchronous demoHooks reqA cachedDemoState (.success "va") h
  refine ⟨h, ?_, ?_⟩
  · rw [hthm.1]
    rfl
  · exact hthm.2.2.2.1

/-- C10.  Caller callback detachment: every `_process_request` call hands the
download machinery the request with `callback = None` and `errback = None`
(the fingerprint is computed from the fetch-defining fields, so it is the same
before and after detachment), while the detached pair is attached to the
caller's own per-call waiter: that waiter either sits in the waiting queue of
the request's key or has already been fired with an outcome — so each caller's
callbacks receive the outcome even when the fetch was deduplicated onto
another caller's request. -/
theorem callback_detachment (hooks : Hooks) (r : Request) (s : EngineState)
    (effs : List Effect) (hinv : Inv hooks s effs) :
    (processRequest hooks r s).2.2.2 = detachCallbacks r ∧
    (detachCallbacks r).callback = none ∧
    (detachCallbacks r).errback = none ∧
    request_fingerprint (detachCallbacks r) = request_fingerprint r ∧
    (∀ fp req, Effect.fetchInvoked fp req ∈ (processRequest hooks r s).2.1 →
      req = detachCallbacks r) ∧
    (∀ fp req, Effect.downloadStarted fp req ∈ (processRequest hooks r s).2.1 →
      req = detachCallbacks r) ∧
    ((⟨s.nextWid, r.callback, r.errback⟩ : Waiter) ∈
        (dictFind (processRequest hooks r s).1.info.waiting (request_fingerprint r)).getD [] ∨
      ∃ out,
        Effect.notify (request_fingerprint r) ⟨s.nextWid, r.callback, r.errback⟩ out ∈
            (processRequest hooks r s).2.1 ∨
          Effect.notifyCached (request_fingerprint r) ⟨s.nextWid, r.callback, r.errback⟩ out ∈
            (processRequest hooks r s).2.1) := by
  refine ⟨?_, rfl, rfl, rfl, ?_, ?_, ?_⟩
  · exact (processRequest_frame hooks r s effs hinv).2.1
  · intro fp req hmem
    cases hc : dictFind s.info.downloaded (request_fingerprint r) with
    | some v =>
        rw [processRequest_cached hooks r s v hc] at hmem
        simp at hmem
    | none =>
        by_cases hm : request_fingerprint r ∈ s.info.downloading
        · rw [processRequest_inflight hooks r s hc hm] at hmem
          simp at hmem
        · cases h3 : hooks.media_to_download (detachCallbacks r) with
          | none =>
              rw [processRequest_pending hooks r s hc hm h3] at hmem
              simp at hmem
              exact hmem.2
          | some o =>
              rw [processRequest_shortcircuit hooks r s o hc hm h3] at hmem
              dsimp only at hmem
              rw [resolveKey_def] at hmem
              dsimp only at hmem
              rcases List.mem_cons.mp hmem with hmem | hmem
              · cases hmem
                rfl
              · rcases List.mem_map.mp hmem with ⟨w, _, hw⟩
                simp at hw
  · intro fp req hmem
    cases hc : dictFind s.info.downloaded (request_fingerprint r) with
    | some v =>
        rw [processRequest_cached hooks r s v hc] at hmem
        simp at hmem
    | none =>
        by_cases hm : request_fingerprint r ∈ s.info.downloading
        · rw [processRequest_inflight hooks r s hc hm] at hmem
          simp at hmem
        · cases h3 : hooks.media_to_download (detachCallbacks r) with
          | none =>
              rw [processRequest_pending hooks r s hc hm h3] at hmem
              simp at hmem
              exact hmem.2
          | some o =>
              rw [processRequest_shortcircuit hooks r s o hc hm h3] at hmem
              dsimp only at hmem
              rw [resolveKey_def] at hmem
              dsimp only at hmem
              rcases List.mem_cons.mp hmem with hmem | hmem
              · cases hmem
              · rcases List.mem_map.mp hmem with ⟨w, _, hw⟩
                simp at hw
  · cases hc : dictFind s.info.downloaded (request_fingerprint r) with
    | some v =>
        rw [processRequest_cached hooks r s v hc]
        exact Or.inr ⟨v, Or.inr (List.mem_singleton_self _)⟩
    | none =>
        by_cases hm : request_fingerprint r ∈ s.info.downloading
        · rw [processRequest_inflight hooks r s hc hm]
          left
          dsimp only
          rw [show waitAppend s.info.waiting (request_fingerprint r)
              ⟨s.nextWid, r.callback, r.errback⟩ =
            dictInsert s.info.waiting (request_fingerprint r)
              ((dictFind s.info.waiting (request_fingerprint r)).getD [] ++
                [⟨s.nextWid, r.callback, r.errback⟩]) from rfl, dictFind_insert_self]
          exact List.mem_append_right _ (List.mem_singleton_self _)
        · have hwn : dictFind s.info.waiting (request_fingerprint r) = none := by
            cases hq : dictFind s.info.waiting (request_fingerprint r) with
            | none => rfl
            | some ws => exact absurd (hinv.waitInflight _ (by simp [hq])) hm
          cases h3 : hooks.media_to_download (detachCallbacks r) with
          | none =>
              rw [processRequest_pending hooks r s hc hm h3]
              left
              dsimp only
              rw [show waitAppend s.info.waiting (request_fingerprint r)
                  ⟨s.nextWid, r.callback, r.errback⟩ =
                dictInsert s.info.waiting (request_fingerprint r)
                  ((dictFind s.info.waiting (request_fingerprint r)).getD [] ++
                    [⟨s.nextWid, r.callback, r.errback⟩]) from rfl, dictFind_insert_self]
              exact List.mem_append_right _ (List.mem_singleton_self _)
          | some o =>
              rw [processRequest_shortcircuit_eq hooks r s o hc hm hwn h3]
              exact Or.inr ⟨cleanFailure o,
                Or.inl (List.mem_cons_of_mem _ (List.mem_singleton_self _))⟩

/-- C10 witness: submitting `reqA` into the fresh state detaches its callback
pair onto its waiter and hands a callback-free request to the fetch chain. -/
theorem callback_detachment_witness :
    (processRequest demoHooks reqA (freshState 0)).2.2.2 = detachCallbacks reqA ∧
    (detachCallbacks reqA).callback = none ∧
    (detachCallbacks reqA).errback = none := by
  have hthm := callback_detachment demoHooks reqA (freshState 0) [] (inv_fresh demoHooks 0)
  exact ⟨hthm.1, hthm.2.1, hthm.2.2.1⟩

theorem runFrom_single (hooks : Hooks) (s : EngineState) (ev : Event) :
    runFrom hooks s [ev] = ((step hooks s ev).1, (step hooks s ev).2) := by
  simp [runFrom]

/-- C1.  Single-flight: however many submits a session makes for requests
with fingerprint `k` — as long as at least one is made — the fetch chain of
line 110 is started exactly once for `k`, at most one download is started for
`k`, and every waiter notified for `k` (queued or cache-served) receives the
same outcome. -/
theorem single_flight (hooks : Hooks) (spider : Nat) (events : List Event) (k : String)
    (h : SubmitsKey hooks events k) :
    countFetch k (run hooks spider events).2 = 1 ∧
    countDownload k (run hooks spider events).2 ≤ 1 ∧
    (∀ o1 o2, o1 ∈ notifyOutsFor k (run hooks spider events).2 →
      o2 ∈ notifyOutsFor k (run hooks spider events).2 → o1 = o2) := by
  have hcount : countFetch k (run hooks spider events).2 = 1 := by
    obtain ⟨it, hmem, rs, hg, r, hr, hfp⟩ := h
    obtain ⟨l1, l2, rfl⟩ := List.append_of_mem hmem
    have htouched : Touched k (run hooks spider (l1 ++ Event.submitItem it :: l2)).1 := by
      rw [run, show l1 ++ Event.submitItem it :: l2 =
        (l1 ++ [Event.submitItem it]) ++ l2 from by simp, runFrom_append]
      dsimp only
      refine touched_runFrom hooks _ l2 k ?_
      rw [runFrom_append]
      dsimp only
      rw [runFrom_single]
      dsimp only
      subst hfp
      exact touched_step_submit hooks _ it rs r hg hr
    rw [(inv_run hooks spider (l1 ++ Event.submitItem it :: l2)).fetchCount k]
    rcases htouched with ht | ht
    · rw [if_pos (Or.inl ht)]
    · rw [if_pos (Or.inr ht)]
  refine ⟨hcount, ?_, ?_⟩
  · have := (inv_run hooks spider events).dlCount k
    omega
  · intro o1 o2 h1 h2
    have e1 := (inv_run hooks spider events).notifySame k o1 h1
    have e2 := (inv_run hooks spider events).notifySame k o2 h2
    rw [e1] at e2
    exact Option.some_injective _ e2

/-- C1 witness: items 0 and 1 both reference `b`; the session fetches
`GET b` exactly once. -/
theorem single_flight_witness :
    SubmitsKey demoHooks [Event.submitItem 0, Event.submitItem 1] "GET b" ∧
    countFetch "GET b" (run demoHooks 0 [Event.submitItem 0, Event.submitItem 1]).2 = 1 := by
  have hs : SubmitsKey demoHooks [Event.submitItem 0, Event.submitItem 1] "GET b" :=
    ⟨1, by simp, [reqB2], rfl, reqB2, by simp, rfl⟩
  exact ⟨hs, (single_flight demoHooks 0 [Event.submitItem 0, Event.submitItem 1] "GET b" hs).1⟩

/-- C8.  Pre-fetch short-circuit: for a key entering the unseen state, a
non-`None` `media_to_download` result is resolved directly — sanitized,
cached, delivered to the caller's waiter — with no download started; only a
`None` result starts the asynchronous download and leaves the key inflight. -/
theorem prefetch_short_circuit (hooks : Hooks) (r : Request) (s : EngineState)
    (effs : List Effect) (hinv : Inv hooks s effs)
    (hc : dictFind s.info.downloaded (request_fingerprint r) = none)
    (hm : request_fingerprint r ∉ s.info.downloading) :
    (∀ o, hooks.media_to_download (detachCallbacks r) = some o →
      processRequest hooks r s =
        ({ s with
            info := { s.info with
              downloaded := dictInsert s.info.downloaded (request_fingerprint r)
                (cleanFailure o) },
            fired := dictInsert s.fired s.nextWid (cleanFailure o),
            nextWid := s.nextWid + 1 },
         [Effect.fetchInvoked (request_fingerprint r) (detachCallbacks r),
          Effect.notify (request_fingerprint r)
            ⟨s.nextWid, r.callback, r.errback⟩ (cleanFailure o)],
         s.nextWid, detachCallbacks r) ∧
      countDownload (request_fingerprint r) (processRequest hooks r s).2.1 = 0) ∧
    (hooks.media_to_download (detachCallbacks r) = none →
      processRequest hooks r s =
        ({ s with
            info := { s.info with
              waiting := waitAppend s.info.waiting (request_fingerprint r)
                ⟨s.nextWid, r.callback, r.errback⟩,
              downloading := setAdd s.info.downloading (request_fingerprint r) },
            nextWid := s.nextWid + 1 },
         [Effect.fetchInvoked (request_fingerprint r) (detachCallbacks r),
          Effect.downloadStarted (request_fingerprint r) (detachCallbacks r)],
         s.nextWid, detachCallbacks r) ∧
      request_fingerprint r ∈ (processRequest hooks r s).1.info.downloading ∧
      countDownload (request_fingerprint r) (processRequest hooks r s).2.1 = 1 ∧
      countFetch (request_fingerprint r) (processRequest hooks r s).2.1 = 1) := by
  have hwn : dictFind s.info.waiting (request_fingerprint r) = none := by
    cases hq : dictFind s.info.waiting (request_fingerprint r) with
    | none => rfl
    | some ws => exact absurd (hinv.waitInflight _ (by simp [hq])) hm
  constructor
  · intro o h3
    have heq := processRequest_shortcircuit_eq hooks r s o hc hm hwn h3
    refine ⟨heq, ?_⟩
    rw [heq]
    rfl
  · intro h3
    have heq := processRequest_pending hooks r s hc hm h3
    refine ⟨heq, ?_, ?_, ?_⟩
    · rw [heq]
      dsimp only
      exact (mem_setAdd _ _ _).mpr (Or.inr rfl)
    · rw [heq]
      dsimp only
      rw [countDownload_pair_fetch_download, if_pos rfl]
    · rw [heq]
      dsimp only
      rw [countFetch_pair_fetch_download, if_pos rfl]

/-- C8 witness: with `scHooks`, request `a` is short-circuited (no download),
request `b` is not (one download started). -/
theorem prefetch_short_circuit_witness :
    scHooks.media_to_download (detachCallbacks reqA) = some (.success "substitute") ∧
    countDownload (request_fingerprint reqA)
      (processRequest scHooks reqA (freshState 0)).2.1 = 0 ∧
    dictFind (processRequest scHooks reqA (freshState 0)).1.info.downloaded "GET a" =
      some (.success "substitute") ∧
    scHooks.media_to_download (detachCallbacks reqB) = none ∧
    countDownload (request_fingerprint reqB)
      (processRequest scHooks reqB (freshState 0)).2.1 = 1 := by
  have h1 := (prefetch_short_circuit scHooks reqA (freshState 0) [] (inv_fresh scHooks 0)
    rfl (by decide)).1 (.success "substitute") rfl
  have h2 := (prefetch_short_circuit scHooks reqB (freshState 0) [] (inv_fresh scHooks 0)
    rfl (by decide)).2 rfl
  refine ⟨rfl, h1.2, ?_, rfl, h2.2.2.1⟩
  rw [h1.1]
  rfl

/-- C3.  AND-join completeness: (1) every non-raising `process_item` call is
accounted for by exactly one `item_completed` invocation or one still-pending
join; (2) no join's hook ever fires twice; (3) a completion's result list has
exactly one `(ok, outcome)` entry per submitted reference, in submit order,
each carrying the outcome its reference's key resolved to; (4) a join that
has not completed still has an unresolved reference; (5) an item with no
references completes immediately, in the same step, with an empty result
list. -/
theorem and_join_completeness (hooks : Hooks) (spider : Nat) (events : List Event) :
    (∀ i, countSubmitOk hooks i events =
      countComplFor i (run hooks spider events).2 +
        countPendFor i (run hooks spider events).1.tasks) ∧
    (∀ tid, (complTids (run hooks spider events).2).count tid ≤ 1) ∧
    (∀ tid it results, Effect.itemCompleted tid it results ∈ (run hooks spider events).2 →
      ∃ rs, hooks.get_media_requests it = .ok rs ∧
        results.length = rs.length ∧
        ∀ j (hj : j < results.length) (hj2 : j < rs.length),
          ∃ v, dictFind (run hooks spider events).1.info.downloaded
              (request_fingerprint (rs.get ⟨j, hj2⟩)) = some v ∧
            results.get ⟨j, hj⟩ = (!v.isFailure, v)) ∧
    (∀ t, t ∈ (run hooks spider events).1.tasks →
      ∃ sl, sl ∈ t.slots ∧
        sl.2 ∈ (run hooks spider events).1.info.downloading ∧
        dictFind (run hooks spider events).1.info.downloaded sl.2 = none) ∧
    (∀ it, hooks.get_media_requests it = .ok [] →
      step hooks (run hooks spider events).1 (.submitItem it) =
        ({ (run hooks spider events).1 with
            nextTid := (run hooks spider events).1.nextTid + 1 },
         [Effect.itemCompleted (run hooks spider events).1.nextTid it []])) := by
  refine ⟨run_conservation hooks spider events, ?_,
    (inv_run hooks spider events).complOk, ?_, ?_⟩
  · intro tid
    have hnodup : (complTids (run hooks spider events).2).Nodup :=
      (List.sublist_append_left _ _).nodup (inv_run hooks spider events).tidsNodup
    exact List.nodup_iff_count_le_one.mp hnodup tid
  · intro t ht
    have hpend := run_allPending hooks spider events t ht
    rw [taskDone, List.all_eq_false] at hpend
    obtain ⟨sl, hsl, hun⟩ := hpend
    rcases (inv_run hooks spider events).slotOk t ht sl hsl with hw | ⟨v2, hf, _⟩
    · have hsome : (dictFind (run hooks spider events).1.info.waiting sl.2).isSome := by
        cases hq : dictFind (run hooks spider events).1.info.waiting sl.2 with
        | none =>
            rw [waitWids, hq] at hw
            simp at hw
        | some ws => rfl
      have hdl := (inv_run hooks spider events).waitInflight sl.2 hsome
      exact ⟨sl, hsl, hdl, (inv_run hooks spider events).disj sl.2 hdl⟩
    · rw [hf] at hun
      simp at hun
  · intro it hg
    have hpend := run_allPending hooks spider events
    simp only [step, process_item, hg, processRequests]
    rw [sweep]
    dsimp only
    rw [show ((run hooks spider events).1.tasks ++
        [(⟨(run hooks spider events).1.nextTid, it, []⟩ : ItemTask)]).filter
        (taskDone (run hooks spider events).1.fired) =
        [⟨(run hooks spider events).1.nextTid, it, []⟩] from by
      rw [List.filter_append, List.filter_eq_nil_iff.mpr
        (by intro t ht; simp [hpend t ht]), List.nil_append]
      rfl]
    rw [show ((run hooks spider events).1.tasks ++
        [(⟨(run hooks spider events).1.nextTid, it, []⟩ : ItemTask)]).filter
        (fun t => !taskDone (run hooks spider events).1.fired t) =
        (run hooks spider events).1.tasks from by
      rw [List.filter_append, List.filter_eq_self.mpr
        (by intro t ht; simp [hpend t ht]),
        show ([(⟨(run hooks spider events).1.nextTid, it, []⟩ : ItemTask)].filter
          (fun t => !taskDone (run hooks spider events).1.fired t)) = [] from rfl,
        List.append_nil]]
    rfl

/-- C3 witness: with the demo hooks, submitting items 0 and 1 and completing
both downloads balances the conservation count for item 0, fires no hook
twice, and an empty-reference item (item 2) completes immediately with `[]`
from the fresh state. -/
theorem and_join_completeness_witness :
    countSubmitOk demoHooks 0
        [Event.submitItem 0, Event.submitItem 1,
         Event.completeDownload "GET a" (.success "va"),
         Event.completeDownload "GET b" (.success "vb")] =
      countComplFor 0 (run demoHooks 0
        [Event.submitItem 0, Event.submitItem 1,
         Event.completeDownload "GET a" (.success "va"),
         Event.completeDownload "GET b" (.success "vb")]).2 +
        countPendFor 0 (run demoHooks 0
          [Event.submitItem 0, Event.submitItem 1,
           Event.completeDownload "GET a" (.success "va"),
           Event.completeDownload "GET b" (.success "vb")]).1.tasks ∧
    (complTids (run demoHooks 0
        [Event.submitItem 0, Event.submitItem 1,
         Event.completeDownload "GET a" (.success "va"),
         Event.completeDownload "GET b" (.success "vb")]).2).count 0 ≤ 1 ∧
    demoHooks.get_media_requests 2 = .ok [] ∧
    step demoHooks (run demoHooks 0 []).1 (.submitItem 2) =
      ({ (run demoHooks 0 []).1 with
          nextTid := (run demoHooks 0 []).1.nextTid + 1 },
       [Effect.itemCompleted (run demoHooks 0 []).1.nextTid 2 []]) := by
  refine ⟨(and_join_completeness demoHooks 0
      [Event.submitItem 0, Event.submitItem 1,
       Event.completeDownload "GET a" (.success "va"),
       Event.completeDownload "GET b" (.success "vb")]).1 0,
    (and_join_completeness demoHooks 0
      [Event.submitItem 0, Event.submitItem 1,
       Event.completeDownload "GET a" (.success "va"),
       Event.completeDownload "GET b" (.success "vb")]).2.1 0,
    rfl,
    (and_join_completeness demoHooks 0 []).2.2.2.2 2 rfl⟩

/-- C6 counterexample: item 3's `get_media_requests` raises `boom`; the run
records only the propagated `process_item` error and the per-item completion
hook never fires for item 3, contradicting the claim that the completion hook
fires even when `get_media_requests` raises. -/
theorem hook_failure_counterexample :
    demoHooks.get_media_requests 3 = .error "boom" ∧
    (run demoHooks 0 [Event.submitItem 3]).2 = [Effect.processItemError 3 "boom"] ∧
    complTids (run demoHooks 0 [Event.submitItem 3]).2 = [] := by
  exact ⟨rfl, by decide, by decide⟩

/-- C6 amended: a raising `get_media_requests` makes `process_item` propagate
the exception — no join is created, no completion hook fires for that item —
but the session state is untouched and the rest of the trace is unaffected;
a raising `media_to_download` (or a post-fetch handler, which reaches the
cache as a `Failure` the same way) is confined to its key: the key resolves
to the sanitized failure, the caller's waiter is notified with it, and no
download is started. -/
theorem hook_failure_isolation (hooks : Hooks) (spider : Nat) (events : List Event) :
    (∀ it e, hooks.get_media_requests it = .error e →
      step hooks (run hooks spider events).1 (.submitItem it) =
        ((run hooks spider events).1, [Effect.processItemError it e])) ∧
    (∀ l2 it e, hooks.get_media_requests it = .error e →
      run hooks spider (events ++ Event.submitItem it :: l2) =
        ((run hooks spider (events ++ l2)).1,
         (run hooks spider events).2 ++
           Effect.processItemError it e ::
             (runFrom hooks (run hooks spider events).1 l2).2)) ∧
    (∀ r s effs e fr st, Inv hooks s effs →
      dictFind s.info.downloaded (request_fingerprint r) = none →
      request_fingerprint r ∉ s.info.downloading →
      hooks.media_to_download (detachCallbacks r) = some (.failure e fr st) →
      dictFind (processRequest hooks r s).1.info.downloaded (request_fingerprint r) =
          some (.failure e [] none) ∧
      Effect.notify (request_fingerprint r) ⟨s.nextWid, r.callback, r.errback⟩
          (.failure e [] none) ∈ (processRequest hooks r s).2.1 ∧
      countDownload (request_fingerprint r) (processRequest hooks r s).2.1 = 0) := by
  have hstep : ∀ it e, hooks.get_media_requests it = .error e →
      step hooks (run hooks spider events).1 (.submitItem it) =
        ((run hooks spider events).1, [Effect.processItemError it e]) := by
    intro it e hg
    simp only [step, process_item, hg]
    rw [sweep_id _ (run_allPending hooks spider events)]
    simp
  refine ⟨hstep, ?_, ?_⟩
  · intro l2 it e hg
    rw [run, show events ++ Event.submitItem it :: l2 =
      (events ++ [Event.submitItem it]) ++ l2 from by simp,
      runFrom_append, runFrom_append, runFrom_single]
    dsimp only
    rw [show step hooks (runFrom hooks (freshState spider) events).1 (.submitItem it) =
      ((runFrom hooks (freshState spider) events).1,
       [Effect.processItemError it e]) from hstep it e hg]
    dsimp only
    rw [run, runFrom_append]
    dsimp only
    rw [show run hooks spider events = runFrom hooks (freshState spider) events from rfl,
      List.append_assoc]
    rfl
  · intro r s effs e fr st hinv hc hm h3
    have hwn : dictFind s.info.waiting (request_fingerprint r) = none := by
      cases hq : dictFind s.info.waiting (request_fingerprint r) with
      | none => rfl
      | some ws => exact absurd (hinv.waitInflight _ (by simp [hq])) hm
    have heq := processRequest_shortcircuit_eq hooks r s (.failure e fr st) hc hm hwn h3
    rw [heq]
    refine ⟨?_, ?_, rfl⟩
    · dsimp only
      rw [show cleanFailure (.failure e fr st) = .failure e [] none from rfl,
        dictFind_insert_self]
    · dsimp only
      rw [show cleanFailure (.failure e fr st) = .failure e [] none from rfl]
      exact List.mem_cons_of_mem _ (List.mem_singleton_self _)

/-- C6 amended witness: item 3's raising extractor leaves the fresh session
state untouched, and a raising `media_to_download` caches the sanitized
failure for `GET a`. -/
theorem hook_failure_isolation_witness :
    demoHooks.get_media_requests 3 = .error "boom" ∧
    step demoHooks (run demoHooks 0 []).1 (.submitItem 3) =
      ((run demoHooks 0 []).1, [Effect.processItemError 3 "boom"]) ∧
    dictFind (processRequest failHooks reqA (freshState 0)).1.info.downloaded "GET a" =
      some (.failure "hookboom" [] none) := by
  refine ⟨rfl, (hook_failure_isolation demoHooks 0 []).1 3 "boom" rfl, ?_⟩
  exact ((hook_failure_isolation failHooks 0 []).2.2 reqA (freshState 0) []
    "hookboom" ["frame0", "frame1"] (some "stack") (inv_fresh failHooks 0)
    rfl (by decide) rfl).1

end MediaPipeline
